import Mathlib

/-!
Verification of `main.py` of the ImageVideoOrganizer repository.

The program manipulates a filesystem tree.  We shallowly embed the tree as an
inductive type `Entry` (a file with a name, or a directory with a name and a
list of children), and translate each Python function over `pathlib.Path`
trees into a pure Lean function over `Entry`.  File and directory names are
modelled as `List Char` (Python strings are sequences of characters); numeric
rendering (`str(n)`, `zfill`) and `pathlib`'s `suffix` / `stem` / `lower`
are reproduced below.

Modelling conventions, stated once:
* Directory listings are lists; the on-disk listing order is unspecified in
  Python, so every theorem is either order-independent or quantifies over
  the listing order.
* Operations of the program that act on distinct directories are independent
  (each step of `organize_files` / `rename_files` only reads and writes the
  directory it is visiting), so the breadth-first traversals of the source
  are embedded as structural recursion over the tree; the result is the same.
* External collaborators (ffmpeg, PIL, OpenCC) are abstracted: the encoder
  probe's subprocess output becomes an `Option (List Char)` argument
  (`none` = the probe raised), the OpenCC conversion table becomes an
  arbitrary function on names, and a conversion invocation is modelled by
  the output path it writes.
-/

namespace IVO

/-- Names (Python strings) are modelled as lists of characters. -/
abbrev Name := List Char

/-- `_temp`, the marker inserted by Phase A of `organize_files` (line 127). -/
def tempMark : Name := ['_', 't', 'e', 'm', 'p']

/-- The literal `.mp4`. -/
def mp4Ext : Name := ['.', 'm', 'p', '4']

/-- The literal `.jpg`. -/
def jpgExt : Name := ['.', 'j', 'p', 'g']

/-- The literal folder name `V`. -/
def vName : Name := ['V']

/-- The literal folder name `P`. -/
def pName : Name := ['P']

/-- Python `str.lower()`, characterwise (the names handled by the program are
ASCII, where `Char.toLower` agrees with Python). -/
def pyLower (n : Name) : Name := n.map Char.toLower

/-- Decimal digit character for `d < 10` (used to model Python `str(n)`). -/
def digCh (d : Nat) : Char :=
  match d with
  | 0 => '0' | 1 => '1' | 2 => '2' | 3 => '3' | 4 => '4'
  | 5 => '5' | 6 => '6' | 7 => '7' | 8 => '8' | _ => '9'

/-- Numeric value of a digit character (inverse of `digCh`). -/
def digVal (c : Char) : Nat := c.toNat - 48

/-- Decimal rendering, structured with a fuel argument so that the
definition is structurally recursive (the fuel `n` always suffices, see
`natToStrFuel_adequate`). -/
def natToStrFuel : Nat → Nat → Name
  | 0, n => [digCh n]
  | fuel + 1, n =>
      if n < 10 then [digCh n] else natToStrFuel fuel (n / 10) ++ [digCh (n % 10)]

/-- Decimal rendering of a natural number, i.e. Python `str(n)`. -/
def natToStr (n : Nat) : Name := natToStrFuel n n

/-- Parse a digit string back to a number (proof tool, left fold base `a`). -/
def parseFrom (a : Nat) (l : List Char) : Nat :=
  l.foldl (fun x c => x * 10 + digVal c) a

/-- Parse a digit string back to a number. -/
def parseNat (l : List Char) : Nat := parseFrom 0 l

/-- Python `str.zfill(w)`: left-pad with `'0'` to width `w`. -/
def zfill (s : Name) (w : Nat) : Name := List.replicate (w - s.length) '0' ++ s

/-- `pathlib`'s `Path.suffix`: the part of the name from the last dot on,
empty when the last dot is absent, leading, or trailing. -/
def pySuffix (n : Name) : Name :=
  match n.reverse.dropWhile (fun c => c ≠ '.') with
  | [] => []
  | _ :: b' =>
      if n.reverse.takeWhile (fun c => c ≠ '.') = [] ∨ b' = [] then []
      else '.' :: (n.reverse.takeWhile (fun c => c ≠ '.')).reverse

/-- `pathlib`'s `Path.stem`: the name with `pySuffix` removed. -/
def pyStem (n : Name) : Name := n.take (n.length - (pySuffix n).length)

/-- A name whose `pathlib` suffix, lowercased, is `.mp4` or `.jpg` — the
files kept by `organize_files` (line 124). -/
def isMediaName (n : Name) : Bool :=
  pyLower (pySuffix n) = mp4Ext || pyLower (pySuffix n) = jpgExt

/-- A name whose `pathlib` suffix, lowercased, is `.mp4` (line 164). -/
def isMp4Name (n : Name) : Bool := pyLower (pySuffix n) = mp4Ext

/-- A name whose `pathlib` suffix, lowercased, is `.jpg` (line 166). -/
def isJpgName (n : Name) : Bool := pyLower (pySuffix n) = jpgExt

/-- The temporary name `f"{file.stem}_temp{idx}{file.suffix}"` assigned by
Phase A of `organize_files` (line 127). -/
def tempName (n : Name) (idx : Nat) : Name :=
  pyStem n ++ tempMark ++ natToStr idx ++ pySuffix n

/-! ### The filesystem tree -/

/-- A filesystem entry: a file or a directory with its direct children. -/
inductive Entry : Type
  | file (name : Name)
  | dir (name : Name) (children : List Entry)

mutual

/-- Decidable equality of entries (the `deriving` handler does not support
nested inductives, so it is spelled out). -/
def Entry.decEq : (a b : Entry) → Decidable (a = b)
  | .file n, .file m =>
      match (inferInstance : Decidable (n = m)) with
      | isTrue h => isTrue (by rw [h])
      | isFalse h => isFalse (fun hh => by cases hh; exact h rfl)
  | .file _, .dir _ _ => isFalse (fun h => by cases h)
  | .dir _ _, .file _ => isFalse (fun h => by cases h)
  | .dir n cs, .dir m ds =>
      match (inferInstance : Decidable (n = m)) with
      | isFalse h => isFalse (fun hh => by cases hh; exact h rfl)
      | isTrue h =>
        match Entry.decEqList cs ds with
        | isTrue h2 => isTrue (by rw [h, h2])
        | isFalse h2 => isFalse (fun hh => by cases hh; exact h2 rfl)

/-- Decidable equality of entry lists. -/
def Entry.decEqList : (as bs : List Entry) → Decidable (as = bs)
  | [], [] => isTrue rfl
  | [], _ :: _ => isFalse (fun h => by cases h)
  | _ :: _, [] => isFalse (fun h => by cases h)
  | a :: as, b :: bs =>
      match Entry.decEq a b with
      | isFalse h => isFalse (fun hh => by cases hh; exact h rfl)
      | isTrue h =>
        match Entry.decEqList as bs with
        | isTrue h2 => isTrue (by rw [h, h2])
        | isFalse h2 => isFalse (fun hh => by cases hh; exact h2 rfl)

end

instance : DecidableEq Entry := Entry.decEq

namespace Entry

/-- The name of an entry. -/
def name : Entry → Name
  | .file n => n
  | .dir n _ => n

/-- Whether the entry is a file. -/
def isFile : Entry → Bool
  | .file _ => true
  | .dir _ _ => false

/-- Whether the entry is a file whose name satisfies `p`. -/
def isFileWith (p : Name → Bool) : Entry → Bool
  | .file n => p n
  | .dir _ _ => false

end Entry

/-- Names of the direct file children of a directory listing. -/
def fileNames (cs : List Entry) : List Name :=
  (cs.filter Entry.isFile).map Entry.name

/-- Number of direct file children (`rename_files` line 190). -/
def countFiles (cs : List Entry) : Nat := (cs.filter Entry.isFile).length

/-- All file names in a forest, in traversal order (files of a directory in
listing order, descending into subdirectories at their position). -/
def allFiles : List Entry → List Name
  | [] => []
  | .file n :: rest => n :: allFiles rest
  | .dir _ ch :: rest => allFiles ch ++ allFiles rest

/-- `(current_dir / 'V').exists() or (current_dir / 'P').exists()`
(lines 144–145): some direct child (file or directory) is named `V` or `P`. -/
def hasVPB (cs : List Entry) : Bool :=
  cs.any (fun e => e.name = vName || e.name = pName)

/-! ### `organize_files`, Phase A (lines 120–128)

`organize_files` first walks every file of the output tree with `rglob`,
deletes files whose lowercased suffix is not `.mp4`/`.jpg`, and renames the
survivors to `{stem}_temp{idx}{suffix}` with a single counter `idx` that
increases over the whole walk.  The walk order of `rglob` is
implementation-defined; we fix the order "files of a directory in listing
order, descending into a subdirectory at its position", and thread the
counter through it.  Every property proved below about the counter is
order-independent (only uniqueness of the values matters). -/

mutual

/-- Phase A on one entry: a file is deleted or renamed (lines 123–128), a
directory's children are walked; returns the surviving entries together with
the new counter value. -/
def phaseAStep : Entry → Nat → List Entry × Nat
  | .file n, i =>
      if isMediaName n then ([.file (tempName n i)], i + 1) else ([], i)
  | .dir n ch, i => ([.dir n (phaseAList ch i).1], (phaseAList ch i).2)

/-- Phase A over a forest, threading the global counter; returns the new
forest and the final counter value. -/
def phaseAList : List Entry → Nat → List Entry × Nat
  | [], i => ([], i)
  | c :: rest, i =>
      ((phaseAStep c i).1 ++ (phaseAList rest (phaseAStep c i).2).1,
        (phaseAList rest (phaseAStep c i).2).2)

end

/-- Phase A applied below the output root (the root itself is not a file). -/
def phaseAEntry : Entry → Entry
  | .file n => .file n
  | .dir n cs => .dir n (phaseAList cs 0).1

/-! ### `clear_empty_folders` (lines 220–223)

The source removes, in one pass over `sorted(rglob("*"), reverse=True)`,
every directory that is empty when inspected.  Reverse path order lists every
descendant before its ancestor (a parent's path is a strict prefix of its
child's), so directories that become empty because all their children were
removed are also removed; the pass is exactly a bottom-up pruning of
subtrees that contain no file.  The root itself is not produced by `rglob`
and is never removed. -/

mutual

/-- The contribution of one entry to the pruned listing: a file survives, a
directory survives exactly when its pruned listing is nonempty. -/
def pruneStep : Entry → List Entry
  | .file n => [.file n]
  | .dir n ch =>
      if (pruneList ch).isEmpty then [] else [.dir n (pruneList ch)]

/-- Bottom-up removal of empty directories from a forest. -/
def pruneList : List Entry → List Entry
  | [] => []
  | c :: rest => pruneStep c ++ pruneList rest

end

/-- `clear_empty_folders(output_dir)`. -/
def clear_empty_folders : Entry → Entry
  | .file n => .file n
  | .dir n cs => .dir n (pruneList cs)

/-! ### `organize_files`, Phase B (lines 132–175)

Phase B walks the tree level by level.  A directory named `V` or `P` is
skipped outright (line 140; its subdirectories are also never enqueued,
line 171).  Otherwise, if the directory has no child named `V` or `P`
(lines 144–148), its direct media files are moved into freshly created
`V` and `P` subfolders (lines 150–167), and in every case its
subdirectories other than `V`/`P` are enqueued for the next level
(lines 170–172).  Each iteration reads and writes only the directory it
visits, and a directory is visited before its subdirectories, whose
listings it does not touch — so the breadth-first loop computes the same
tree as the structural recursion below (children first, which commutes
with the single-directory step because the step never changes a child
directory's name or contents). -/

/-- The single-directory step of Phase B on the directory's listing. -/
def stepDir (cs : List Entry) : List Entry :=
  if hasVPB cs then cs
  else
    let toMove := cs.filter (Entry.isFileWith isMediaName)
    if toMove.isEmpty then cs
    else
      cs.filter (fun e => !(Entry.isFileWith isMediaName e)) ++
        [.dir vName (cs.filter (Entry.isFileWith isMp4Name)),
         .dir pName (cs.filter (Entry.isFileWith isJpgName))]

mutual

/-- Phase B of `organize_files`. -/
def phaseBEntry : Entry → Entry
  | .file n => .file n
  | .dir n cs =>
      if n = vName ∨ n = pName then .dir n cs
      else .dir n (stepDir (phaseBList cs))

/-- Phase B applied to each entry of a listing. -/
def phaseBList : List Entry → List Entry
  | [] => []
  | c :: rest => phaseBEntry c :: phaseBList rest

end

/-- `organize_files(output_dir)`: Phase A, the interleaved
`clear_empty_folders` call (line 130), then Phase B. -/
def organize_files (e : Entry) : Entry :=
  phaseBEntry (clear_empty_folders (phaseAEntry e))

/-! ### `rename_files` (lines 179–200) -/

/-- `get_padded_number(num, total_files)` (lines 181–184). -/
def getPaddedNumber (num total : Nat) : Name :=
  zfill (natToStr num) (natToStr total).length

/-- The new name assigned to the `idx`-th of `total` files of a directory
named `dirName` (lines 192–198); for the `preview` branch it depends on the
file's current name `n` through `f.suffix.lower()`. -/
def newName (dirName : Name) (total idx : Nat) (n : Name) : Name :=
  if dirName = pName then
    ['P', '('] ++ getPaddedNumber idx total ++ [')'] ++ jpgExt
  else if dirName = vName then
    ['V', '('] ++ getPaddedNumber idx total ++ [')'] ++ mp4Ext
  else
    ['p', 'r', 'e', 'v', 'i', 'e', 'w', '('] ++ getPaddedNumber idx total ++ [')'] ++
      pyLower (pySuffix n)

mutual

/-- The renamer's action on one entry of a directory named `dirName` with
`total` direct files: the `k`-th file (1-based among files) is renamed
(line 199), a subdirectory is processed as its own directory. -/
def renameStep (dirName : Name) (total k : Nat) : Entry → Entry
  | .file n => .file (newName dirName total k n)
  | .dir m ch => .dir m (renameGo m (countFiles ch) ch 1)

/-- The body of the `rename_files` loop for one directory (named `dirName`,
with `total` direct files), renaming the `k`-th, `k+1`-th, … files and
recursing into subdirectories (the breadth-first queue of the source
processes every directory independently exactly once, so the recursion
computes the same tree). -/
def renameGo (dirName : Name) (total : Nat) : List Entry → Nat → List Entry
  | [], _ => []
  | c :: rest, k =>
      renameStep dirName total k c ::
        renameGo dirName total rest (if c.isFile then k + 1 else k)

end

/-- `rename_files` restricted to one directory's listing. -/
def renameInDir (dirName : Name) (cs : List Entry) : List Entry :=
  renameGo dirName (countFiles cs) cs 1

/-- `rename_files(output_dir)` (the root is processed with its own name). -/
def rename_files : Entry → Entry
  | .file n => .file n
  | .dir n cs => .dir n (renameInDir n cs)

/-- The tree produced by `convert_names` (every name replaced by `tau`). -/
def convertNames (tau : Name → Name) : Entry → Entry
  | .file n => .file (tau n)
  | .dir n cs => .dir (tau n) (cs.attach.map (fun c => convertNames tau c.1))
  decreasing_by
    have := List.sizeOf_lt_of_mem c.2
    simp only [Entry.dir.sizeOf_spec]
    omega

/-- The rename operations `(old name, new name)` emitted by `convert_path`,
in execution order: all operations of the children (in listing order), then
the operation on the current path when `tau` changes its name. -/
def renameOps (tau : Name → Name) : Entry → List (Name × Name)
  | .file n => if tau n ≠ n then [(n, tau n)] else []
  | .dir n cs =>
      (cs.attach.map (fun c => renameOps tau c.1)).flatten ++
        (if tau n ≠ n then [(n, tau n)] else [])
  decreasing_by
    have := List.sizeOf_lt_of_mem c.2
    simp only [Entry.dir.sizeOf_spec]
    omega

/-- The names of a tree in depth-first post-order (children before parent),
the order in which `convert_path` visits paths for renaming. -/
def postorderNames : Entry → List Name
  | .file n => [n]
  | .dir n cs => (cs.attach.map (fun c => postorderNames c.1)).flatten ++ [n]
  decreasing_by
    have := List.sizeOf_lt_of_mem c.2
    simp only [Entry.dir.sizeOf_spec]
    omega

/-! ### `get_best_available_encoder` (lines 29–54)

The probe runs `ffmpeg -encoders` and searches the captured stdout for
encoder identifiers with Python's substring test.  The probe's interaction
with the outside world is abstracted as an `Option Name`: `some s` is the
captured stdout, `none` means some exception was raised (the `except`
branch, lines 52–54). -/

/-- Is `needle` a prefix of `hay`? -/
def isPrefOf : Name → Name → Bool
  | [], _ => true
  | _ :: _, [] => false
  | a :: as, b :: bs => a = b && isPrefOf as bs

/-- Python's `needle in hay` substring test. -/
def containsSub (needle hay : Name) : Bool :=
  match hay with
  | [] => isPrefOf needle []
  | _ :: rest => isPrefOf needle hay || containsSub needle rest

/-- `'h264_nvenc'`. -/
def nvencName : Name := ['h', '2', '6', '4', '_', 'n', 'v', 'e', 'n', 'c']

/-- `'h264_qsv'`. -/
def qsvName : Name := ['h', '2', '6', '4', '_', 'q', 's', 'v']

/-- `'h264_amf'`. -/
def amfName : Name := ['h', '2', '6', '4', '_', 'a', 'm', 'f']

/-- `'libx264'`. -/
def libx264Name : Name := ['l', 'i', 'b', 'x', '2', '6', '4']

/-- `get_best_available_encoder()` as a function of the probe's outcome. -/
def get_best_available_encoder (probe : Option Name) : Name :=
  match probe with
  | none => libx264Name
  | some encoders =>
      if containsSub nvencName encoders then nvencName
      else if containsSub qsvName encoders then qsvName
      else if containsSub amfName encoders then amfName
      else libx264Name

/-! ### The scanner and the conversion stages (lines 11–27, 56–116)

`get_all_videos` / `get_all_images` run `input_dir.rglob(f"*.{ext}")` for
each allow-listed extension.  The glob pattern matches a name whose tail is
`"." + ext`; following the specification (§4.1) the match is
case-insensitive (both sides are case-normalized).  A scanned file is
identified by its relative parent path (a list of directory names) and its
name.  `convert_videos` / `convert_images` write, for each scanned file,
one output at the mirrored parent path with `".mp4"` / `".jpg"` appended
to the full original name (lines 66 and 104); the external transcoder and
image codec are abstracted as succeeding, so the model returns the list of
written output paths. -/

/-- Is `s` a tail of `n`? -/
def isSuffOf (s n : Name) : Bool := isPrefOf s.reverse n.reverse

/-- Does the name match the glob `*.{ext}` (case-insensitively)? -/
def matchesExt (ext : Name) (n : Name) : Bool :=
  isSuffOf ('.' :: ext) (pyLower n)

/-- `VIDEO_EXTENSIONS` (line 11). -/
def videoExtensions : List Name :=
  [['m', 'p', '4'], ['a', 'v', 'i'], ['m', 'o', 'v'], ['w', 'm', 'v'],
   ['f', 'l', 'v'], ['m', 'p', 'e', 'g'], ['m', 'p', 'g'], ['m', '4', 'v'],
   ['w', 'e', 'b', 'm'], ['m', 'k', 'v']]

/-- `IMAGE_EXTENSIONS` (line 12). -/
def imageExtensions : List Name :=
  [['j', 'p', 'g'], ['j', 'p', 'e', 'g'], ['p', 'n', 'g'], ['g', 'i', 'f'],
   ['b', 'm', 'p'], ['t', 'i', 'f', 'f'], ['i', 'c', 'o'], ['w', 'e', 'b', 'p']]

mutual

/-- The `rglob` matches contributed by one entry: a matching file, or the
matches of a directory's subtree with the directory's name prepended. -/
def collectStep (ext : Name) : Entry → List (List Name × Name)
  | .file n => if matchesExt ext n then [(([] : List Name), n)] else []
  | .dir d ch => (collectExt ext ch).map (fun pr => (d :: pr.1, pr.2))

/-- Files of a forest matching `*.{ext}`, as (relative parent path, name)
pairs.  (A matching directory would also be yielded by `rglob` but its
conversion fails and writes nothing, so only files are collected.) -/
def collectExt (ext : Name) : List Entry → List (List Name × Name)
  | [] => []
  | c :: rest => collectStep ext c ++ collectExt ext rest

end

/-- `get_all_videos(input_dir)` over the input root's listing. -/
def get_all_videos (cs : List Entry) : List (List Name × Name) :=
  (videoExtensions.map (fun e => collectExt e cs)).flatten

/-- `get_all_images(input_dir)` over the input root's listing. -/
def get_all_images (cs : List Entry) : List (List Name × Name) :=
  (imageExtensions.map (fun e => collectExt e cs)).flatten

/-- Output paths written by `convert_videos` (line 66: parent path mirrored,
`".mp4"` appended to the original name). -/
def convert_videos_outputs (videos : List (List Name × Name)) : List (List Name × Name) :=
  videos.map (fun pr => (pr.1, pr.2 ++ mp4Ext))

/-- Output paths written by `convert_images` (line 104). -/
def convert_images_outputs (images : List (List Name × Name)) : List (List Name × Name) :=
  images.map (fun pr => (pr.1, pr.2 ++ jpgExt))

/-- All output paths written by the two conversion stages over an input
forest. -/
def conversionOutputs (cs : List Entry) : List (List Name × Name) :=
  convert_videos_outputs (get_all_videos cs) ++ convert_images_outputs (get_all_images cs)

/-! ### The rename sequence of one directory, for collision analysis

`rename_files` renames the directory's files one at a time (line 199).  For
the directory listing order `fs` (file names, 0-indexed here) and the other
entries `ds` (subdirectory names, never renamed), the `k`-th rename targets
`newName dirName fs.length (k+1) fs[k]`; at that moment the directory
contains the already-renamed targets of steps `0..k-1`, the untouched
originals `fs[k+1..]`, and `ds`. -/

/-- The target name of the `k`-th rename step (0-indexed). -/
def targetOf (dirName : Name) (fs : List Name) (k : Nat) : Name :=
  newName dirName fs.length (k + 1) (fs.getD k [])

/-- Names borne by the other entries of the directory when the `k`-th
rename executes. -/
def othersAt (dirName : Name) (fs ds : List Name) (k : Nat) : List Name :=
  (List.range k).map (targetOf dirName fs) ++ fs.drop (k + 1) ++ ds

/-- No rename step of the directory targets a name borne by a different
entry at that moment. -/
def collisionFreeB (dirName : Name) (fs ds : List Name) : Bool :=
  (List.range fs.length).all
    (fun k => decide (targetOf dirName fs k ∉ othersAt dirName fs ds k))

/-- One `f.rename(folder / new_name)` call (line 199) on a directory's file
listing, with POSIX semantics: `old` disappears, an existing file named
`new` is silently replaced, and `new` appears (survivors keep their listing
order, the renamed file is listed last — listing order after a rename is
filesystem-specific and immaterial to the claims).  On Windows the same
call raises `FileExistsError` instead of replacing, so a run that this
model shows losing a file crashes there. -/
def posixRename (state : List Name) (old new : Name) : List Name :=
  state.filter (fun x => decide (x ≠ old) && decide (x ≠ new)) ++ [new]

/-- The renamer's loop over one directory (lines 191–199): it walks the
snapshot `current_level_files` (of which `fs` supplies the total length for
the padding width), renaming the file `f` at 0-indexed position `k` to
`newName dn fs.length (k+1) f` in the evolving listing `state`. -/
def runRen (dn : Name) (fs : List Name) : List Name → Nat → List Name → List Name
  | [], _, state => state
  | f :: rem, k, state =>
      runRen dn fs rem (k + 1) (posixRename state f (newName dn fs.length (k + 1) f))

/-- The file names of a directory named `dn` after the renamer processes
it, under faithful sequential-rename semantics. -/
def renameRun (dn : Name) (fs : List Name) : List Name :=
  runRen dn fs fs 0 fs

/-! ### Directory lookup by path (for stating tree-shape properties) -/

/-- The first subdirectory named `c` of a listing (names are unique on a
real filesystem, so "first" is immaterial). -/
def findDirNamed (c : Name) : List Entry → Option (List Entry)
  | [] => none
  | .file _ :: rest => findDirNamed c rest
  | .dir m ch :: rest => if m = c then some ch else findDirNamed c rest

/-- The listing of the directory reached from `cs` along `path`. -/
def lookupIn (cs : List Entry) : List Name → Option (List Entry)
  | [] => some cs
  | c :: p =>
      match findDirNamed c cs with
      | none => none
      | some ch => lookupIn ch p

/-- The listing of the directory reached from the root along `path`. -/
def lookupDir (e : Entry) (path : List Name) : Option (List Entry) :=
  match e with
  | .file _ => none
  | .dir _ cs => lookupIn cs path

/-- A path all of whose directories Phase B visits: the root is not named
`V`/`P` (line 140) and no component is `V`/`P` (lines 140 and 171). -/
def visitedPath (rootName : Name) (path : List Name) : Prop :=
  (rootName ≠ vName ∧ rootName ≠ pName) ∧
    ∀ c ∈ path, c ≠ vName ∧ c ≠ pName

/-- Number of direct children bearing a given name. -/
def countNamed (m : Name) (cs : List Entry) : Nat :=
  (cs.filter (fun e => e.name = m)).length

/-- Does the listing hold a direct media file (the `files_to_move` test of
lines 150–156)? -/
def hasMediaB (cs : List Entry) : Bool :=
  cs.any (Entry.isFileWith isMediaName)

/-- Claim C1 as the specification states it, for one input tree `t`: after
`organize_files`, every directory that held a direct media file and had no
pre-existing `V`/`P` child (when Phase B ran, i.e. in the Phase A +
`clear_empty_folders` state) has exactly one `V` and one `P` child, and a
directory retaining a direct media file is a `V`/`P` folder or had a
`V`/`P` child.  Stated for the counterexample; the amended theorem
restricts both parts to paths Phase B visits. -/
def specClaimC1 (t : Entry) : Prop :=
  (∀ path cs cs',
    lookupDir (clear_empty_folders (phaseAEntry t)) path = some cs →
    lookupDir (organize_files t) path = some cs' →
    hasMediaB cs = true → hasVPB cs = false →
    countNamed vName cs' = 1 ∧ countNamed pName cs' = 1) ∧
  (∀ path cs cs',
    lookupDir (clear_empty_folders (phaseAEntry t)) path = some cs →
    lookupDir (organize_files t) path = some cs' →
    hasMediaB cs' = true →
    (∃ q, path = q ++ [vName]) ∨ (∃ q, path = q ++ [pName]) ∨ hasVPB cs = true)

mutual

/-- The (relative parent path, name) pair of one entry's files. -/
def allFilesPathsStep : Entry → List (List Name × Name)
  | .file n => [(([] : List Name), n)]
  | .dir d ch => (allFilesPaths ch).map (fun pr => (d :: pr.1, pr.2))

/-- All files of a forest with their relative parent paths. -/
def allFilesPaths : List Entry → List (List Name × Name)
  | [] => []
  | c :: rest => allFilesPathsStep c ++ allFilesPaths rest

end

/-- The number of occurrences of a (path, name) pair in a list (spelled out
to stay independent of `BEq` instances). -/
def countPair (x : List Name × Name) (l : List (List Name × Name)) : Nat :=
  (l.filter (fun y => y = x)).length

mutual

/-- Every directory node of a tree (including the root), as a
(name, listing) pair. -/
def allDirs : Entry → List (Name × List Entry)
  | .file _ => []
  | .dir n cs => (n, cs) :: allDirsList cs

/-- Directory nodes of every tree of a forest. -/
def allDirsList : List Entry → List (Name × List Entry)
  | [] => []
  | c :: rest => allDirs c ++ allDirsList rest

end

/-! ### Invariants of organized trees (for the rerun claim)

The pipeline's output satisfies three invariants, each a computable
predicate: Phase B would change nothing (`phaseBFixed`), no directory is
empty (`neSubList`), and every file bears exactly the name the renamer
would assign it at its position, with an exact `.mp4`/`.jpg` suffix
(`canonGo`).  Together (`organizedB`) they characterize "already
organized": the pipeline maps any tree into this set and is the identity
on it. -/

mutual

/-- Phase B leaves the entry unchanged: a `V`/`P` directory, or a directory
that has a `V`/`P` child or no direct media file, with all children fixed
as well. -/
def phaseBFixed : Entry → Bool
  | .file _ => true
  | .dir n cs =>
      if n = vName ∨ n = pName then true
      else (hasVPB cs || !(hasMediaB cs)) && phaseBFixedList cs

/-- `phaseBFixed` on every entry of a listing. -/
def phaseBFixedList : List Entry → Bool
  | [] => true
  | c :: rest => phaseBFixed c && phaseBFixedList rest

end

mutual

/-- No directory of the entry's subtree is empty. -/
def neSub : Entry → Bool
  | .file _ => true
  | .dir _ cs => !(cs.isEmpty) && neSubList cs

/-- `neSub` on every entry of a listing. -/
def neSubList : List Entry → Bool
  | [] => true
  | c :: rest => neSub c && neSubList rest

end

mutual

/-- Does the entry's subtree contain a file? -/
def hasFileIn : Entry → Bool
  | .file _ => true
  | .dir _ cs => hasFileInList cs

/-- Does some entry of the listing contain a file? -/
def hasFileInList : List Entry → Bool
  | [] => false
  | c :: rest => hasFileIn c || hasFileInList rest

end

mutual

/-- The entry is name-canonical as the `k`-th item of a directory named
`dn` with `total` files: a file already bears the name the renamer would
assign it and its suffix is exactly `.mp4`/`.jpg`; a directory is
canonical for its own name. -/
def canonStep (dn : Name) (total k : Nat) : Entry → Bool
  | .file n =>
      decide (newName dn total k n = n) &&
        (decide (pySuffix n = mp4Ext) || decide (pySuffix n = jpgExt))
  | .dir m ch => canonGo m (countFiles ch) ch 1

/-- `canonStep` across a listing, threading the 1-based file index. -/
def canonGo (dn : Name) (total : Nat) : List Entry → Nat → Bool
  | [], _ => true
  | c :: rest, k =>
      canonStep dn total k c && canonGo dn total rest (if c.isFile then k + 1 else k)

end

mutual

/-- The pre-rename invariant of Phase B's output: every visited directory
with a direct media file has a `V`/`P`-named subdirectory with a file in
its subtree (so the final sweep cannot remove its last `V`/`P` child). -/
def orgInv : Entry → Bool
  | .file _ => true
  | .dir n cs =>
      if n = vName ∨ n = pName then true
      else
        (!(hasMediaB cs) ||
          cs.any (fun e => !e.isFile && (e.name = vName || e.name = pName) && hasFileIn e)) &&
        orgInvList cs

/-- `orgInv` on every entry of a listing. -/
def orgInvList : List Entry → Bool
  | [] => true
  | c :: rest => orgInv c && orgInvList rest

end

mutual

/-- The state of an entry after Phase A and the interleaved
`clear_empty_folders`: every file below it is a media file, and every
directory below it (itself included) has a file somewhere beneath it. -/
def goodPA : Entry → Bool
  | .file n => isMediaName n
  | .dir _ cs => hasFileInList cs && goodPAList cs

/-- `goodPA` on every entry of a listing. -/
def goodPAList : List Entry → Bool
  | [] => true
  | c :: rest => goodPA c && goodPAList rest

end

/-! ## Infrastructure lemmas -/

/-- Structural induction over `Entry` with a membership hypothesis for the
children of a directory. -/
theorem Entry.inductionOn {motive : Entry → Prop}
    (hf : ∀ n, motive (.file n))
    (hd : ∀ n cs, (∀ c ∈ cs, motive c) → motive (.dir n cs)) :
    ∀ e, motive e
  | .file n => hf n
  | .dir n cs => hd n cs (fun c _hc => Entry.inductionOn hf hd c)
  decreasing_by
    have := List.sizeOf_lt_of_mem _hc
    simp only [Entry.dir.sizeOf_spec]
    omega

/-- Structural induction over forests, with induction hypotheses for both a
directory head's children and the tail. -/
theorem forestInduction {motive : List Entry → Prop}
    (hnil : motive [])
    (hfile : ∀ n rest, motive rest → motive (.file n :: rest))
    (hdir : ∀ n ch rest, motive ch → motive rest → motive (.dir n ch :: rest)) :
    ∀ cs, motive cs
  | [] => hnil
  | .file n :: rest => hfile n rest (forestInduction hnil hfile hdir rest)
  | .dir n ch :: rest =>
      hdir n ch rest (forestInduction hnil hfile hdir ch)
        (forestInduction hnil hfile hdir rest)
  termination_by cs => sizeOf cs
  decreasing_by
    all_goals simp only [List.cons.sizeOf_spec, Entry.dir.sizeOf_spec,
      Entry.file.sizeOf_spec]
    all_goals omega

theorem pruneList_nil : pruneList [] = [] := rfl

theorem pruneList_file (n : Name) (rest : List Entry) :
    pruneList (.file n :: rest) = .file n :: pruneList rest := by
  rw [pruneList, pruneStep]
  simp

theorem pruneList_dir (n : Name) (ch rest : List Entry) :
    pruneList (.dir n ch :: rest) =
      if (pruneList ch).isEmpty then pruneList rest
      else .dir n (pruneList ch) :: pruneList rest := by
  rw [pruneList, pruneStep]
  split <;> simp

theorem renameGo_nil (dn : Name) (total k : Nat) : renameGo dn total [] k = [] := rfl

theorem renameGo_file (dn : Name) (total : Nat) (n : Name) (rest : List Entry) (k : Nat) :
    renameGo dn total (.file n :: rest) k =
      .file (newName dn total k n) :: renameGo dn total rest (k + 1) := by
  rw [renameGo, renameStep]
  simp [Entry.isFile]

theorem renameGo_dir (dn : Name) (total : Nat) (m : Name) (ch rest : List Entry) (k : Nat) :
    renameGo dn total (.dir m ch :: rest) k =
      .dir m (renameGo m (countFiles ch) ch 1) :: renameGo dn total rest k := by
  rw [renameGo, renameStep]
  simp [Entry.isFile]

theorem collectExt_nil (ext : Name) : collectExt ext [] = [] := rfl

theorem collectExt_file (ext n : Name) (rest : List Entry) :
    collectExt ext (.file n :: rest) =
      (if matchesExt ext n then [(([] : List Name), n)] else []) ++ collectExt ext rest := by
  rw [collectExt, collectStep]

theorem collectExt_dir (ext d : Name) (ch rest : List Entry) :
    collectExt ext (.dir d ch :: rest) =
      (collectExt ext ch).map (fun pr => (d :: pr.1, pr.2)) ++ collectExt ext rest := by
  rw [collectExt, collectStep]

theorem phaseBEntry_file (n : Name) : phaseBEntry (.file n) = .file n := by
  rw [phaseBEntry]

theorem phaseBList_eq_map (cs : List Entry) : phaseBList cs = cs.map phaseBEntry := by
  induction cs with
  | nil => rfl
  | cons c rest ih => rw [phaseBList, ih, List.map_cons]

theorem phaseBEntry_dir (n : Name) (cs : List Entry) :
    phaseBEntry (.dir n cs) =
      if n = vName ∨ n = pName then .dir n cs
      else .dir n (stepDir (cs.map phaseBEntry)) := by
  rw [phaseBEntry, phaseBList_eq_map]

theorem convertNames_file (tau : Name → Name) (n : Name) :
    convertNames tau (.file n) = .file (tau n) := by
  rw [convertNames]

theorem renameOps_file (tau : Name → Name) (n : Name) :
    renameOps tau (.file n) = if tau n ≠ n then [(n, tau n)] else [] := by
  rw [renameOps]

theorem postorderNames_file (n : Name) : postorderNames (.file n) = [n] := by
  rw [postorderNames]

theorem convertNames_dir (tau : Name → Name) (n : Name) (cs : List Entry) :
    convertNames tau (.dir n cs) = .dir (tau n) (cs.map (convertNames tau)) := by
  rw [convertNames]
  simp only [List.map_subtype, List.unattach_attach]

theorem renameOps_dir (tau : Name → Name) (n : Name) (cs : List Entry) :
    renameOps tau (.dir n cs) =
      (cs.map (renameOps tau)).flatten ++ (if tau n ≠ n then [(n, tau n)] else []) := by
  rw [renameOps]
  simp only [List.map_subtype, List.unattach_attach]

theorem postorderNames_dir (n : Name) (cs : List Entry) :
    postorderNames (.dir n cs) = (cs.map postorderNames).flatten ++ [n] := by
  rw [postorderNames]
  simp only [List.map_subtype, List.unattach_attach]

/-! ## Claim C8: the encoder probe -/

/-- C8: as a function of the transcoder's encoder-listing text, the probe
returns the NVIDIA encoder if its identifier occurs in the text, else the
Intel QuickSync encoder if its identifier occurs, else the AMD encoder if
its identifier occurs, else the CPU software encoder; and when the probe
raises (modelled as `none`), it returns the CPU software encoder. -/
theorem claim_C8 (s : Name) :
    (containsSub nvencName s = true →
      get_best_available_encoder (some s) = nvencName) ∧
    (containsSub nvencName s = false → containsSub qsvName s = true →
      get_best_available_encoder (some s) = qsvName) ∧
    (containsSub nvencName s = false → containsSub qsvName s = false →
      containsSub amfName s = true →
      get_best_available_encoder (some s) = amfName) ∧
    (containsSub nvencName s = false → containsSub qsvName s = false →
      containsSub amfName s = false →
      get_best_available_encoder (some s) = libx264Name) ∧
    get_best_available_encoder none = libx264Name := by
  refine ⟨fun h1 => ?_, fun h1 h2 => ?_, fun h1 h2 h3 => ?_, fun h1 h2 h3 => ?_, rfl⟩
  · simp [get_best_available_encoder, h1]
  · simp [get_best_available_encoder, h1, h2]
  · simp [get_best_available_encoder, h1, h2, h3]
  · simp [get_best_available_encoder, h1, h2, h3]

/-- Witness for C8 at a concrete probe output containing only the QuickSync
identifier. -/
theorem claim_C8_witness :
    get_best_available_encoder
        (some (['x', 'y'] ++ qsvName ++ ['z'])) = qsvName :=
  (claim_C8 (['x', 'y'] ++ qsvName ++ ['z'])).2.1 (by decide) (by decide)

/-! ## Facts about Phase B -/

theorem phaseBEntry_name (e : Entry) : (phaseBEntry e).name = e.name := by
  cases e with
  | file n => rw [phaseBEntry_file]
  | dir n cs =>
      rw [phaseBEntry_dir]
      split <;> rfl

/-- Phase B maps a directory to a directory with the same name. -/
theorem phaseBEntry_dir_shape (n : Name) (cs : List Entry) :
    ∃ ds, phaseBEntry (.dir n cs) = .dir n ds := by
  rw [phaseBEntry_dir]
  split
  · exact ⟨cs, rfl⟩
  · exact ⟨_, rfl⟩

/-- Phase B preserves the file entries of a listing (it renames nothing and
visits only directories). -/
theorem filter_isFileWith_map_phaseB (p : Name → Bool) (cs : List Entry) :
    (cs.map phaseBEntry).filter (Entry.isFileWith p) = cs.filter (Entry.isFileWith p) := by
  induction cs with
  | nil => rfl
  | cons c rest ih =>
      cases c with
      | file n => simp [phaseBEntry_file, List.filter_cons, ih]
      | dir m ch =>
          obtain ⟨ds, hds⟩ := phaseBEntry_dir_shape m ch
          simp [hds, List.filter_cons, ih, Entry.isFileWith]

theorem filter_isFile_map_phaseB (cs : List Entry) :
    (cs.map phaseBEntry).filter Entry.isFile = cs.filter Entry.isFile := by
  induction cs with
  | nil => rfl
  | cons c rest ih =>
      cases c with
      | file n => simp [phaseBEntry_file, List.filter_cons, ih]
      | dir m ch =>
          obtain ⟨ds, hds⟩ := phaseBEntry_dir_shape m ch
          simp [hds, List.filter_cons, ih, Entry.isFile]

theorem map_name_map_phaseB (cs : List Entry) :
    (cs.map phaseBEntry).map Entry.name = cs.map Entry.name := by
  induction cs with
  | nil => rfl
  | cons c rest ih => simp [phaseBEntry_name, ih]

theorem hasVPB_map_phaseB (cs : List Entry) :
    hasVPB (cs.map phaseBEntry) = hasVPB cs := by
  unfold hasVPB
  induction cs with
  | nil => rfl
  | cons c rest ih => simp [phaseBEntry_name, ih]

/-! ## Claim C5: directories with an existing `V` or `P` child are skipped -/

/-- C5: when Phase B inspects a directory (not itself named `V`/`P`) that
already has a child named `V` or `P`, it creates no new subfolder there and
moves none of the files directly inside it: the resulting listing is the
original one with Phase B applied inside the subdirectories — same entry
names in the same order, and the very same file entries. -/
theorem claim_C5 (n : Name) (cs : List Entry)
    (h1 : n ≠ vName) (h2 : n ≠ pName) (h : hasVPB cs = true) :
    phaseBEntry (.dir n cs) = .dir n (cs.map phaseBEntry) ∧
    (cs.map phaseBEntry).map Entry.name = cs.map Entry.name ∧
    (cs.map phaseBEntry).filter Entry.isFile = cs.filter Entry.isFile := by
  refine ⟨?_, map_name_map_phaseB cs, filter_isFile_map_phaseB cs⟩
  rw [phaseBEntry_dir]
  rw [if_neg (by tauto)]
  unfold stepDir
  rw [if_pos (by rw [hasVPB_map_phaseB]; exact h)]

/-! ## Decimal strings -/

theorem digCh_isDigit (d : Nat) : (digCh d).isDigit = true := by
  unfold digCh
  split <;> decide

theorem digVal_digCh (d : Nat) (h : d < 10) : digVal (digCh d) = d := by
  interval_cases d <;> decide

/-- Any sufficient fuel computes the same digit string. -/
theorem natToStrFuel_adequate : ∀ (f1 f2 m : Nat), m ≤ f1 → m ≤ f2 →
    natToStrFuel f1 m = natToStrFuel f2 m := by
  intro f1
  induction f1 with
  | zero =>
      intro f2 m h1 h2
      have : m = 0 := by omega
      subst this
      cases f2 with
      | zero => rfl
      | succ j => rw [natToStrFuel, natToStrFuel, if_pos (by omega)]
  | succ k ih =>
      intro f2 m h1 h2
      cases f2 with
      | zero =>
          have : m = 0 := by omega
          subst this
          rw [natToStrFuel, natToStrFuel, if_pos (by omega)]
      | succ j =>
          by_cases hm : m < 10
          · rw [natToStrFuel, natToStrFuel, if_pos hm, if_pos hm]
          · rw [natToStrFuel, natToStrFuel, if_neg hm, if_neg hm,
              ih j (m / 10) (by omega) (by omega)]

theorem natToStr_lt (n : Nat) (h : n < 10) : natToStr n = [digCh n] := by
  unfold natToStr
  cases n with
  | zero => rfl
  | succ k => rw [natToStrFuel, if_pos h]

theorem natToStr_ge (n : Nat) (h : ¬ n < 10) :
    natToStr n = natToStr (n / 10) ++ [digCh (n % 10)] := by
  unfold natToStr
  cases n with
  | zero => omega
  | succ k =>
      rw [natToStrFuel, if_neg h,
        natToStrFuel_adequate k ((k + 1) / 10) ((k + 1) / 10) (by omega) (by omega)]

theorem natToStr_ne_nil (n : Nat) : natToStr n ≠ [] := by
  by_cases h : n < 10
  · rw [natToStr_lt n h]; simp
  · rw [natToStr_ge n h]; simp

theorem natToStr_all_digit (n : Nat) : ∀ c ∈ natToStr n, c.isDigit = true := by
  induction n using Nat.strong_induction_on with
  | _ n ih =>
      by_cases h : n < 10
      · rw [natToStr_lt n h]
        intro c hc
        rw [List.mem_singleton] at hc
        rw [hc]; exact digCh_isDigit n
      · rw [natToStr_ge n h]
        intro c hc
        rcases List.mem_append.mp hc with hc | hc
        · exact ih (n / 10) (Nat.div_lt_self (by omega) (by omega)) c hc
        · rw [List.mem_singleton] at hc
          rw [hc]; exact digCh_isDigit (n % 10)

theorem parseFrom_append (a : Nat) (l m : List Char) :
    parseFrom a (l ++ m) = parseFrom (parseFrom a l) m := by
  unfold parseFrom
  rw [List.foldl_append]

theorem parseFrom_natToStr (a n : Nat) :
    parseFrom a (natToStr n) = a * 10 ^ (natToStr n).length + n := by
  induction n using Nat.strong_induction_on with
  | _ n ih =>
      by_cases h : n < 10
      · rw [natToStr_lt n h]
        show parseFrom a [digCh n] = a * 10 ^ 1 + n
        unfold parseFrom
        simp [digVal_digCh n h]
      · rw [natToStr_ge n h, parseFrom_append,
          ih (n / 10) (Nat.div_lt_self (by omega) (by omega))]
        unfold parseFrom
        simp only [List.foldl_cons, List.foldl_nil, List.length_append,
          List.length_singleton]
        rw [digVal_digCh (n % 10) (Nat.mod_lt n (by omega))]
        rw [pow_succ]
        have := Nat.div_add_mod n 10
        ring_nf
        omega

theorem parseNat_natToStr (n : Nat) : parseNat (natToStr n) = n := by
  unfold parseNat
  rw [parseFrom_natToStr]
  simp

theorem parseFrom_zeros (m : Nat) : parseFrom 0 (List.replicate m '0') = 0 := by
  induction m with
  | zero => rfl
  | succ k ih =>
      rw [List.replicate_succ]
      show parseFrom (0 * 10 + digVal '0') (List.replicate k '0') = 0
      have : digVal '0' = 0 := by decide
      rw [this]
      simpa using ih

theorem parseNat_zfill (n w : Nat) : parseNat (zfill (natToStr n) w) = n := by
  unfold parseNat zfill
  rw [parseFrom_append, parseFrom_zeros, ← parseNat, parseNat_natToStr]

theorem parseNat_getPaddedNumber (num total : Nat) :
    parseNat (getPaddedNumber num total) = num := by
  unfold getPaddedNumber
  exact parseNat_zfill num _

theorem getPaddedNumber_all_digit (num total : Nat) :
    ∀ c ∈ getPaddedNumber num total, c.isDigit = true := by
  unfold getPaddedNumber zfill
  intro c hc
  rcases List.mem_append.mp hc with hc | hc
  · rw [List.eq_of_mem_replicate hc]; decide
  · exact natToStr_all_digit num c hc

/-- `takeWhile` over a list that starts with satisfying elements followed by
a failing one. -/
theorem takeWhile_all_append (p : Char → Bool) (xs : List Char) (y : Char)
    (ys : List Char) (hall : ∀ c ∈ xs, p c = true) (hy : p y = false) :
    (xs ++ y :: ys).takeWhile p = xs := by
  induction xs with
  | nil => simp [List.takeWhile_cons, hy]
  | cons x xs ih =>
      have hx : p x = true := hall x (by simp)
      simp only [List.cons_append, List.takeWhile_cons, hx]
      rw [ih (fun c hc => hall c (by simp [hc]))]
      simp

/-- `dropWhile` counterpart of `takeWhile_all_append`. -/
theorem dropWhile_all_append (p : Char → Bool) (xs : List Char) (y : Char)
    (ys : List Char) (hall : ∀ c ∈ xs, p c = true) (hy : p y = false) :
    (xs ++ y :: ys).dropWhile p = y :: ys := by
  induction xs with
  | nil => simp [List.dropWhile_cons, hy]
  | cons x xs ih =>
      have hx : p x = true := hall x (by simp)
      simp only [List.cons_append, List.dropWhile_cons, hx]
      rw [ih (fun c hc => hall c (by simp [hc]))]
      simp

/-! ## Facts about `pySuffix` and `pyStem` -/

/-- If `dropWhile` returns a nonempty list, its head fails the predicate. -/
theorem dropWhile_head_false (p : Char → Bool) (l : List Char) (y : Char)
    (ys : List Char) (h : l.dropWhile p = y :: ys) : p y = false := by
  induction l with
  | nil => simp at h
  | cons a l ih =>
      rw [List.dropWhile_cons] at h
      by_cases hp : p a = true
      · rw [if_pos hp] at h
        exact ih h
      · rw [if_neg hp] at h
        cases h
        simpa using hp

/-- A `pathlib` suffix is empty or a dot followed by a nonempty dot-free
tail. -/
theorem pySuffix_spec (n : Name) :
    pySuffix n = [] ∨ ∃ d, pySuffix n = '.' :: d ∧ d ≠ [] ∧ '.' ∉ d := by
  unfold pySuffix
  cases hb : n.reverse.dropWhile (fun c => c ≠ '.') with
  | nil => exact Or.inl rfl
  | cons b0 b' =>
      dsimp only
      by_cases hc : n.reverse.takeWhile (fun c => c ≠ '.') = [] ∨ b' = []
      · rw [if_pos hc]
        exact Or.inl rfl
      · rw [if_neg hc]
        refine Or.inr ⟨(n.reverse.takeWhile (fun c => c ≠ '.')).reverse, rfl, ?_, ?_⟩
        · push_neg at hc
          simpa using hc.1
        · intro hdot
          have := List.mem_takeWhile_imp (List.mem_reverse.mp hdot)
          simp at this

/-- The suffix of a name built from a dot-free nonempty tail after a dot,
with a nonempty front. -/
theorem pySuffix_append (c d : Name) (hc : c ≠ []) (hd : d ≠ [])
    (hdot : '.' ∉ d) : pySuffix (c ++ '.' :: d) = '.' :: d := by
  unfold pySuffix
  have hrev : (c ++ '.' :: d).reverse = d.reverse ++ '.' :: c.reverse := by
    simp
  have halld : ∀ x ∈ d.reverse, (fun c => decide (c ≠ '.')) x = true := by
    intro x hx
    have : x ∈ d := List.mem_reverse.mp hx
    simp only [decide_eq_true_eq]
    intro hxx
    exact hdot (hxx ▸ this)
  have hdotf : (fun c => decide (c ≠ '.')) '.' = false := by simp
  rw [hrev, takeWhile_all_append _ _ _ _ halld hdotf,
    dropWhile_all_append _ _ _ _ halld hdotf]
  dsimp only
  have h1 : ¬(d.reverse = [] ∨ c.reverse = []) := by
    push_neg
    constructor <;> simpa
  rw [if_neg h1, List.reverse_reverse]

/-- The stem and the suffix concatenate back to the name. -/
theorem pyStem_append_pySuffix (n : Name) : pyStem n ++ pySuffix n = n := by
  unfold pyStem
  unfold pySuffix
  cases hb : n.reverse.dropWhile (fun c => c ≠ '.') with
  | nil => simp
  | cons b0 b' =>
      dsimp only
      by_cases hc : n.reverse.takeWhile (fun c => c ≠ '.') = [] ∨ b' = []
      · rw [if_pos hc]
        simp
      · rw [if_neg hc]
        have hsplit : n.reverse.takeWhile (fun c => c ≠ '.') ++ (b0 :: b') = n.reverse := by
          rw [← hb]
          exact List.takeWhile_append_dropWhile _ _
        have hb0 : b0 = '.' := by
          have := dropWhile_head_false _ _ _ _ hb
          simpa using this
        set a := n.reverse.takeWhile (fun c => c ≠ '.') with ha
        have hn : n = b'.reverse ++ '.' :: a.reverse := by
          have h2 := congrArg List.reverse hsplit
          rw [List.reverse_reverse] at h2
          rw [← h2, hb0]
          simp
        conv_lhs => rw [hn]
        conv_rhs => rw [hn]
        have hlen : (b'.reverse ++ '.' :: a.reverse).length - ('.' :: a.reverse).length
            = b'.reverse.length := by
          simp
        rw [hlen, List.take_left]

/-- Characterization of a media name: its suffix is a dot plus three
dot-free characters lowering to `mp4` or `jpg`. -/
theorem isMediaName_suffix (n : Name) (h : isMediaName n = true) :
    pySuffix n ≠ [] ∧ (∃ d, pySuffix n = '.' :: d ∧ d ≠ [] ∧ '.' ∉ d) := by
  rcases pySuffix_spec n with hs | hs
  · exfalso
    unfold isMediaName at h
    rw [hs] at h
    simp [pyLower, mp4Ext, jpgExt] at h
  · exact ⟨by rcases hs with ⟨d, hd, _, _⟩; rw [hd]; simp, hs⟩

/-- A media name has a suffix of length 4 (`.mp4`/`.jpg` up to case). -/
theorem isMediaName_suffix_len (n : Name) (h : isMediaName n = true) :
    (pySuffix n).length = 4 := by
  unfold isMediaName at h
  rcases Bool.or_eq_true_iff.mp h with h | h
  · have := congrArg List.length (of_decide_eq_true h)
    simpa [pyLower, mp4Ext] using this
  · have := congrArg List.length (of_decide_eq_true h)
    simpa [pyLower, jpgExt] using this

theorem allDirs_file (n : Name) : allDirs (.file n) = [] := by
  rw [allDirs]

theorem allDirsList_eq (cs : List Entry) :
    allDirsList cs = (cs.map allDirs).flatten := by
  induction cs with
  | nil => rfl
  | cons c rest ih => rw [allDirsList, ih, List.map_cons, List.flatten_cons]

theorem allDirs_dir (n : Name) (cs : List Entry) :
    allDirs (.dir n cs) = (n, cs) :: (cs.map allDirs).flatten := by
  rw [allDirs, allDirsList_eq]

/-- The direct file names produced by the renamer for one directory:
position `j` (1-based, counting files only) receives
`newName dirName total j <old name>`. -/
theorem renameGo_fileNames (dn : Name) (total : Nat) (cs : List Entry) (k : Nat) :
    fileNames (renameGo dn total cs k) =
      List.zipWith (fun n j => newName dn total j n) (fileNames cs)
        (List.range' k (countFiles cs)) := by
  induction cs generalizing k with
  | nil => simp [renameGo_nil, fileNames]
  | cons c rest ih =>
      cases c with
      | file n =>
          rw [renameGo_file]
          simp only [fileNames, countFiles, List.filter_cons, Entry.isFile,
            if_pos, List.length_cons, List.map_cons]
          rw [List.range'_succ, List.zipWith_cons_cons]
          have := ih (k + 1)
          unfold fileNames countFiles at this
          rw [this]
          simp [Entry.name]
      | dir m ch =>
          rw [renameGo_dir]
          simp only [fileNames, countFiles, List.filter_cons, Entry.isFile]
          have := ih k
          unfold fileNames countFiles at this
          exact this

/-- Every entry of a renamed listing is a renamed file or a renamed
subdirectory of the original listing. -/
theorem mem_renameGo (dn : Name) (total : Nat) (cs : List Entry) (k : Nat)
    (d : Entry) (hd : d ∈ renameGo dn total cs k) :
    (∃ n j, d = .file (newName dn total j n)) ∨
      ∃ m ch, d = .dir m (renameInDir m ch) ∧ .dir m ch ∈ cs := by
  induction cs generalizing k with
  | nil => simp [renameGo_nil] at hd
  | cons c rest ih =>
      cases c with
      | file n =>
          rw [renameGo_file] at hd
          rcases List.mem_cons.mp hd with rfl | hd
          · exact Or.inl ⟨n, k, rfl⟩
          · rcases ih (k + 1) hd with h | ⟨m, ch, hdd, hm⟩
            · exact Or.inl h
            · exact Or.inr ⟨m, ch, hdd, by simp [hm]⟩
      | dir m ch =>
          rw [renameGo_dir] at hd
          rcases List.mem_cons.mp hd with rfl | hd
          · exact Or.inr ⟨m, ch, rfl, by simp [renameInDir]⟩
          · rcases ih k hd with h | ⟨m', ch', hdd, hm⟩
            · exact Or.inl h
            · exact Or.inr ⟨m', ch', hdd, by simp [hm]⟩

/-- Every directory node of the renamer's output is the renamer's output
for its own listing. -/
theorem allDirs_rename_files (e : Entry) :
    ∀ p ∈ allDirs (rename_files e), ∃ ds, p.2 = renameInDir p.1 ds := by
  induction e using Entry.inductionOn with
  | hf n => simp [rename_files, allDirs_file]
  | hd n cs ih =>
      intro p hp
      have hre : rename_files (.dir n cs) = .dir n (renameInDir n cs) := rfl
      rw [hre, allDirs_dir] at hp
      rcases List.mem_cons.mp hp with rfl | hp
      · exact ⟨cs, rfl⟩
      · obtain ⟨l, hl, hpl⟩ := List.mem_flatten.mp hp
        obtain ⟨d, hdmem, rfl⟩ := List.mem_map.mp hl
        rcases mem_renameGo n (countFiles cs) cs 1 d hdmem with ⟨n', j, rfl⟩ | ⟨m, ch, rfl, hmem⟩
        · simp [allDirs_file] at hpl
        · have : allDirs (.dir m (renameInDir m ch)) = allDirs (rename_files (.dir m ch)) := rfl
          rw [this] at hpl
          exact ih (.dir m ch) hmem p hpl

/-- `zipWith` with a function ignoring its first argument is a map over the
second list, when the first is at least as long. -/
theorem zipWith_ignore_left {α β γ : Type} (g : β → γ) (as : List α) (bs : List β)
    (h : bs.length ≤ as.length) :
    List.zipWith (fun _ b => g b) as bs = bs.map g := by
  induction as generalizing bs with
  | nil =>
      cases bs with
      | nil => rfl
      | cons b bs => simp at h
  | cons a as ih =>
      cases bs with
      | nil => rfl
      | cons b bs =>
          simp only [List.zipWith_cons_cons, List.map_cons]
          rw [ih bs (by simpa using h)]

/-- The literal target name `V(<idx>).mp4` determines its index. -/
theorem vTarget_inj (j j' total : Nat)
    (h : ['V', '('] ++ getPaddedNumber j total ++ [')'] ++ mp4Ext =
      ['V', '('] ++ getPaddedNumber j' total ++ [')'] ++ mp4Ext) : j = j' := by
  have h2 : getPaddedNumber j total ++ [')'] ++ mp4Ext =
      getPaddedNumber j' total ++ [')'] ++ mp4Ext := by
    have := congrArg (fun l => l.drop 2) h
    simpa using this
  have h3 : (getPaddedNumber j total ++ [')'] ++ mp4Ext).takeWhile Char.isDigit =
      getPaddedNumber j total := by
    have : getPaddedNumber j total ++ [')'] ++ mp4Ext =
        getPaddedNumber j total ++ ')' :: mp4Ext := by simp
    rw [this, takeWhile_all_append _ _ _ _ (getPaddedNumber_all_digit j total) (by decide)]
  have h4 : (getPaddedNumber j' total ++ [')'] ++ mp4Ext).takeWhile Char.isDigit =
      getPaddedNumber j' total := by
    have : getPaddedNumber j' total ++ [')'] ++ mp4Ext =
        getPaddedNumber j' total ++ ')' :: mp4Ext := by simp
    rw [this, takeWhile_all_append _ _ _ _ (getPaddedNumber_all_digit j' total) (by decide)]
  have h5 : getPaddedNumber j total = getPaddedNumber j' total := by
    rw [← h3, ← h4, h2]
  have := congrArg parseNat h5
  rwa [parseNat_getPaddedNumber, parseNat_getPaddedNumber] at this

/-- The literal target name `P(<idx>).jpg` determines its index. -/
theorem pTarget_inj (j j' total : Nat)
    (h : ['P', '('] ++ getPaddedNumber j total ++ [')'] ++ jpgExt =
      ['P', '('] ++ getPaddedNumber j' total ++ [')'] ++ jpgExt) : j = j' := by
  have h2 : getPaddedNumber j total ++ [')'] ++ jpgExt =
      getPaddedNumber j' total ++ [')'] ++ jpgExt := by
    have := congrArg (fun l => l.drop 2) h
    simpa using this
  have h3 : (getPaddedNumber j total ++ [')'] ++ jpgExt).takeWhile Char.isDigit =
      getPaddedNumber j total := by
    have : getPaddedNumber j total ++ [')'] ++ jpgExt =
        getPaddedNumber j total ++ ')' :: jpgExt := by simp
    rw [this, takeWhile_all_append _ _ _ _ (getPaddedNumber_all_digit j total) (by decide)]
  have h4 : (getPaddedNumber j' total ++ [')'] ++ jpgExt).takeWhile Char.isDigit =
      getPaddedNumber j' total := by
    have : getPaddedNumber j' total ++ [')'] ++ jpgExt =
        getPaddedNumber j' total ++ ')' :: jpgExt := by simp
    rw [this, takeWhile_all_append _ _ _ _ (getPaddedNumber_all_digit j' total) (by decide)]
  have h5 : getPaddedNumber j total = getPaddedNumber j' total := by
    rw [← h3, ← h4, h2]
  have := congrArg parseNat h5
  rwa [parseNat_getPaddedNumber, parseNat_getPaddedNumber] at this

/-! ## Claim C7: rename collisions

The claim asserts that no rename step of `rename_files` can target a name
borne by a different existing entry, for any initial names and listing
order.  That is false: targets are pairwise distinct, but a target can
coincide with the original name of a file not yet renamed.  It holds as
soon as no initial name is one of the assigned targets, which is the state
Phase A's temporary renaming establishes. -/

/-- Equal strings of the form `<pad>)<tail>` have equal indices. -/
theorem pad_close_inj (j j' total : Nat) (s s' : Name)
    (h : getPaddedNumber j total ++ ')' :: s = getPaddedNumber j' total ++ ')' :: s') :
    j = j' := by
  have h3 := takeWhile_all_append Char.isDigit (getPaddedNumber j total) ')' s
    (getPaddedNumber_all_digit j total) (by decide)
  have h4 := takeWhile_all_append Char.isDigit (getPaddedNumber j' total) ')' s'
    (getPaddedNumber_all_digit j' total) (by decide)
  have h5 : getPaddedNumber j total = getPaddedNumber j' total := by
    rw [← h3, ← h4, h]
  have h6 := congrArg parseNat h5
  rwa [parseNat_getPaddedNumber, parseNat_getPaddedNumber] at h6

/-- The index of a rename target is determined by the target name. -/
theorem newName_inj (dn : Name) (total j j' : Nat) (n n' : Name)
    (h : newName dn total j n = newName dn total j' n') : j = j' := by
  unfold newName at h
  by_cases hp : dn = pName
  · rw [if_pos hp, if_pos hp] at h
    have h2 : getPaddedNumber j total ++ ')' :: jpgExt =
        getPaddedNumber j' total ++ ')' :: jpgExt := by
      have := congrArg (fun l => l.drop 2) h
      simpa using this
    exact pad_close_inj j j' total _ _ h2
  · rw [if_neg hp, if_neg hp] at h
    by_cases hv : dn = vName
    · rw [if_pos hv, if_pos hv] at h
      have h2 : getPaddedNumber j total ++ ')' :: mp4Ext =
          getPaddedNumber j' total ++ ')' :: mp4Ext := by
        have := congrArg (fun l => l.drop 2) h
        simpa using this
      exact pad_close_inj j j' total _ _ h2
    · rw [if_neg hv, if_neg hv] at h
      have h2 : getPaddedNumber j total ++ ')' :: pyLower (pySuffix n) =
          getPaddedNumber j' total ++ ')' :: pyLower (pySuffix n') := by
        have := congrArg (fun l => l.drop 8) h
        simpa using this
      exact pad_close_inj j j' total _ _ h2

/-- Distinct rename steps of one directory have distinct targets. -/
theorem targetOf_inj (dn : Name) (fs : List Name) (k k' : Nat)
    (h : targetOf dn fs k = targetOf dn fs k') : k = k' := by
  unfold targetOf at h
  have := newName_inj dn fs.length (k + 1) (k' + 1) _ _ h
  omega

/-- C7 counterexample: the claim fails as stated.  In a directory named `V`
whose listing order is the file `b.mp4` followed by the file `V(1).mp4`,
the first rename step targets `V(1).mp4`, a name borne by the other,
not-yet-renamed file. -/
theorem claim_C7_counterexample :
    ¬ ∀ (dn : Name) (fs ds : List Name), collisionFreeB dn fs ds = true := by
  intro h
  have h2 := h vName
    [['b', '.', 'm', 'p', '4'], ['V', '(', '1', ')', '.', 'm', 'p', '4']] []
  exact absurd h2 (by decide)

/-- C7 amended: the assigned targets are pairwise distinct, so provided no
file or subdirectory of the directory initially bears one of the assigned
target names — in particular after Phase A's temporary renaming — no rename
step targets a name borne by a different existing entry, for any listing
order. -/
theorem claim_C7_amended (dn : Name) (fs ds : List Name)
    (hfree : ∀ k < fs.length, targetOf dn fs k ∉ fs ++ ds) :
    collisionFreeB dn fs ds = true := by
  unfold collisionFreeB
  rw [List.all_eq_true]
  intro k hk
  rw [List.mem_range] at hk
  rw [decide_eq_true_eq]
  intro hmem
  unfold othersAt at hmem
  rcases List.mem_append.mp hmem with hmem2 | hmem2
  · rcases List.mem_append.mp hmem2 with hmem3 | hmem3
    · obtain ⟨j, hj, hje⟩ := List.mem_map.mp hmem3
      rw [List.mem_range] at hj
      have := targetOf_inj dn fs j k hje
      omega
    · exact hfree k hk (List.mem_append.mpr (Or.inl (List.mem_of_mem_drop hmem3)))
  · exact hfree k hk (List.mem_append.mpr (Or.inr hmem2))

/-- Witness for the amended C7: a `V` directory holding two Phase A
temporary names. -/
theorem claim_C7_amended_witness :
    collisionFreeB vName
      [['a', '_', 't', 'e', 'm', 'p', '0', '.', 'm', 'p', '4'],
       ['b', '_', 't', 'e', 'm', 'p', '1', '.', 'm', 'p', '4']] [['d']] = true :=
  claim_C7_amended vName
    [['a', '_', 't', 'e', 'm', 'p', '0', '.', 'm', 'p', '4'],
     ['b', '_', 't', 'e', 'm', 'p', '1', '.', 'm', 'p', '4']] [['d']] (by decide)

/-! ## Claim C2: the renamer's per-directory output names, corrected

Under faithful rename semantics a step whose target name is borne by a
not-yet-renamed sibling silently destroys that sibling (POSIX) or raises
(Windows), so the claimed bijection onto `V(1..N)` fails on such listings
(the C7 counterexample input ends as the single file `V(2).mp4`).  The
bijection holds as soon as no initial name is an assigned target — the
state Phase A's temporary renaming establishes. -/

/-- The head of the dropped prefix is the element at that position. -/
theorem getD_of_drop_cons : ∀ (fs : List Name) (k : Nat) (f : Name) (rem : List Name),
    fs.drop k = f :: rem → fs.getD k [] = f := by
  intro fs
  induction fs with
  | nil =>
      intro k f rem h
      rw [List.drop_nil] at h
      cases h
  | cons a fs ih =>
      intro k f rem h
      cases k with
      | zero =>
          rw [List.drop_zero] at h
          injection h with h1 h2
      | succ k =>
          rw [List.drop_succ_cons] at h
          rw [List.getD_cons_succ]
          exact ih k f rem h

/-- The faithful rename run, when no assigned target is an initial name:
after `k` steps the directory holds the untouched originals `fs[k..]`
followed by the first `k` targets, and the run ends with exactly the
assigned targets. -/
theorem runRen_steps (dn : Name) (fs : List Name) (hnd : fs.Nodup)
    (hfree : ∀ k < fs.length, targetOf dn fs k ∉ fs) :
    ∀ rem k, fs.drop k = rem → k ≤ fs.length →
    runRen dn fs rem k (rem ++ (List.range k).map (targetOf dn fs)) =
      (List.range fs.length).map (targetOf dn fs) := by
  intro rem
  induction rem with
  | nil =>
      intro k hdrop hk
      have hlen := congrArg List.length hdrop
      rw [List.length_drop] at hlen
      simp at hlen
      have hkn : k = fs.length := by omega
      subst hkn
      rw [runRen]
      rw [List.nil_append]
  | cons f rem' ih =>
      intro k hdrop hk
      have hlen := congrArg List.length hdrop
      rw [List.length_drop, List.length_cons] at hlen
      have hklt : k < fs.length := by omega
      have hdrop' : fs.drop (k + 1) = rem' := by
        rw [← List.tail_drop fs k, hdrop]
        rfl
      have hfmem : f ∈ fs :=
        List.mem_of_mem_drop (show f ∈ fs.drop k by rw [hdrop]; simp)
      have hndk : (f :: rem').Nodup := by
        rw [← hdrop]
        exact List.Nodup.sublist (List.drop_sublist k fs) hnd
      have hfnotin : f ∉ rem' := (List.nodup_cons.mp hndk).1
      rw [runRen]
      have hf : fs.getD k [] = f := getD_of_drop_cons fs k f rem' hdrop
      have htgt : newName dn fs.length (k + 1) f = targetOf dn fs k := by
        unfold targetOf
        rw [hf]
      rw [htgt]
      have hstate : posixRename ((f :: rem') ++ (List.range k).map (targetOf dn fs)) f
          (targetOf dn fs k) = rem' ++ (List.range (k + 1)).map (targetOf dn fs) := by
        unfold posixRename
        rw [List.cons_append, List.filter_cons, if_neg (by simp), List.filter_append]
        have hrem : rem'.filter
            (fun x => decide (x ≠ f) && decide (x ≠ targetOf dn fs k)) = rem' := by
          refine List.filter_eq_self.mpr ?_
          intro x hx
          have hxf : x ≠ f := by
            intro hh
            refine hfnotin ?_
            rw [← hh]
            exact hx
          have hxfs : x ∈ fs :=
            List.mem_of_mem_drop (show x ∈ fs.drop (k + 1) by rw [hdrop']; exact hx)
          have hxt : x ≠ targetOf dn fs k := by
            intro hh
            refine hfree k hklt ?_
            rw [← hh]
            exact hxfs
          simp [hxf, hxt]
        have hT : ((List.range k).map (targetOf dn fs)).filter
            (fun x => decide (x ≠ f) && decide (x ≠ targetOf dn fs k)) =
            (List.range k).map (targetOf dn fs) := by
          refine List.filter_eq_self.mpr ?_
          intro x hx
          obtain ⟨j, hj, rfl⟩ := List.mem_map.mp hx
          rw [List.mem_range] at hj
          have h1 : targetOf dn fs j ≠ f := by
            intro hh
            refine hfree j (by omega) ?_
            rw [hh]
            exact hfmem
          have h2 : targetOf dn fs j ≠ targetOf dn fs k := by
            intro hh
            have := targetOf_inj dn fs j k hh
            omega
          simp [h1, h2]
        rw [hrem, hT, List.append_assoc, List.range_succ, List.map_append]
        simp
      rw [hstate]
      exact ih (k + 1) hdrop' (by omega)

/-- When no assigned target is an initial name, the faithful run loses no
file: the directory ends with exactly the assigned targets. -/
theorem runRen_of_free (dn : Name) (fs : List Name) (hnd : fs.Nodup)
    (hfree : ∀ k < fs.length, targetOf dn fs k ∉ fs) :
    renameRun dn fs = (List.range fs.length).map (targetOf dn fs) := by
  unfold renameRun
  have h := runRen_steps dn fs hnd hfree fs 0 (by rw [List.drop_zero]) (by omega)
  simpa using h

/-- C2 as stated is false: it asserts the bijection onto `V(1..N)` for
every `V` directory, but on a listing whose name coincides with an assigned
target the sequential renames destroy a file.  At `[b.mp4, V(1).mp4]` the
first step renames `b.mp4` onto the existing `V(1).mp4` (replacing it) and
the second renames that file to `V(2).mp4`: the directory ends with the
single file `V(2).mp4`, and `V(1).mp4` is not among the final names. -/
theorem claim_C2_counterexample :
    ¬ ∀ fs : List Name, fs.Nodup →
      ∀ x, x ∈ renameRun vName fs ↔
        x ∈ (List.range' 1 fs.length).map
          (fun j => ['V', '('] ++ getPaddedNumber j fs.length ++ [')'] ++ mp4Ext) := by
  intro h
  have h2 := h [['b', '.', 'm', 'p', '4'], ['V', '(', '1', ')', '.', 'm', 'p', '4']]
    (by decide) (['V', '(', '1', ')', '.', 'm', 'p', '4'])
  exact absurd (h2.mpr (by decide)) (by decide)

/-- C2 amended: for a directory named `V` holding `N` files none of which
initially bears an assigned target name (the state after Phase A's
temporary renaming), the renamer's sequential renames, under faithful
overwrite semantics, delete nothing and end with file names exactly
`V(1).mp4 … V(N).mp4` (indices zero-padded to `len(str(N))` digits),
pairwise distinct — the indices are a bijection onto `1..N` — and
analogously `P(i).jpg` for directories named `P`. -/
theorem claim_C2_amended (dn : Name) (fs : List Name) (hnd : fs.Nodup)
    (hfree : ∀ k < fs.length, targetOf dn fs k ∉ fs) :
    (dn = vName →
      renameRun dn fs = (List.range' 1 fs.length).map
        (fun j => ['V', '('] ++ getPaddedNumber j fs.length ++ [')'] ++ mp4Ext) ∧
      (renameRun dn fs).Nodup) ∧
    (dn = pName →
      renameRun dn fs = (List.range' 1 fs.length).map
        (fun j => ['P', '('] ++ getPaddedNumber j fs.length ++ [')'] ++ jpgExt) ∧
      (renameRun dn fs).Nodup) := by
  have hrun := runRen_of_free dn fs hnd hfree
  have hnodup : (renameRun dn fs).Nodup := by
    rw [hrun]
    exact List.Nodup.map_on (fun x _ y _ hxy => targetOf_inj dn fs x y hxy)
      (List.nodup_range _)
  constructor
  · intro hv
    subst hv
    refine ⟨?_, hnodup⟩
    rw [hrun, List.range'_eq_map_range, List.map_map]
    refine List.map_congr_left ?_
    intro k hk
    simp only [Function.comp]
    unfold targetOf newName
    rw [if_neg (by decide), if_pos rfl, Nat.add_comm 1 k]
  · intro hp
    subst hp
    refine ⟨?_, hnodup⟩
    rw [hrun, List.range'_eq_map_range, List.map_map]
    refine List.map_congr_left ?_
    intro k hk
    simp only [Function.comp]
    unfold targetOf newName
    rw [if_pos rfl, Nat.add_comm 1 k]

/-- Witness for the amended C2: a two-file listing with no target name
taken, run for a `V` directory. -/
theorem claim_C2_amended_witness :
    (([['a'], ['b']] : List Name).Nodup ∧
      ∀ k < ([['a'], ['b']] : List Name).length,
        targetOf vName [['a'], ['b']] k ∉ ([['a'], ['b']] : List Name)) ∧
    ((vName = vName →
        renameRun vName [['a'], ['b']] =
          (List.range' 1 ([['a'], ['b']] : List Name).length).map
            (fun j => ['V', '('] ++
              getPaddedNumber j ([['a'], ['b']] : List Name).length ++ [')'] ++ mp4Ext) ∧
        (renameRun vName [['a'], ['b']]).Nodup) ∧
      (vName = pName →
        renameRun vName [['a'], ['b']] =
          (List.range' 1 ([['a'], ['b']] : List Name).length).map
            (fun j => ['P', '('] ++
              getPaddedNumber j ([['a'], ['b']] : List Name).length ++ [')'] ++ jpgExt) ∧
        (renameRun vName [['a'], ['b']]).Nodup)) :=
  ⟨⟨by decide, by decide⟩,
    claim_C2_amended vName [['a'], ['b']] (by decide) (by decide)⟩

/-! ## Claim C3: output paths of the conversion stages -/

theorem allFilesPaths_nil : allFilesPaths [] = [] := rfl

theorem allFilesPaths_cons_file (n : Name) (rest : List Entry) :
    allFilesPaths (.file n :: rest) = (([] : List Name), n) :: allFilesPaths rest := by
  rw [allFilesPaths, allFilesPathsStep]
  rfl

theorem allFilesPaths_cons_dir (d : Name) (ch rest : List Entry) :
    allFilesPaths (.dir d ch :: rest) =
      (allFilesPaths ch).map (fun pr => (d :: pr.1, pr.2)) ++ allFilesPaths rest := by
  rw [allFilesPaths, allFilesPathsStep]

theorem countPair_append (x : List Name × Name) (as bs : List (List Name × Name)) :
    countPair x (as ++ bs) = countPair x as + countPair x bs := by
  unfold countPair
  rw [List.filter_append, List.length_append]

theorem countPair_not_mem (x : List Name × Name) (l : List (List Name × Name))
    (h : x ∉ l) : countPair x l = 0 := by
  unfold countPair
  have hfil : l.filter (fun y => y = x) = [] := by
    rw [List.filter_eq_nil_iff]
    intro y hy
    simp only [decide_eq_true_eq]
    intro hyx
    exact h (hyx ▸ hy)
  rw [hfil]
  rfl

theorem countPair_eq_one (x : List Name × Name) (l : List (List Name × Name))
    (hnd : l.Nodup) (hm : x ∈ l) : countPair x l = 1 := by
  induction l with
  | nil => cases hm
  | cons y rest ih =>
      have hy : y ∉ rest := (List.nodup_cons.mp hnd).1
      unfold countPair
      rw [List.filter_cons]
      rcases List.mem_cons.mp hm with heq | hm2
      · rw [if_pos (by simp [heq])]
        have h0 : countPair x rest = 0 :=
          countPair_not_mem x rest (by rw [heq]; exact hy)
        unfold countPair at h0
        rw [List.length_cons, h0]
      · have hyx : y ≠ x := fun h => hy (h ▸ hm2)
        rw [if_neg (by simpa using hyx)]
        have h1 := ih (List.nodup_cons.mp hnd).2 hm2
        unfold countPair at h1
        exact h1

theorem countPair_map (f : (List Name × Name) → (List Name × Name))
    (hf : ∀ a b, f a = f b → a = b) (x : List Name × Name)
    (l : List (List Name × Name)) :
    countPair (f x) (l.map f) = countPair x l := by
  induction l with
  | nil => rfl
  | cons y rest ih =>
      unfold countPair
      rw [List.map_cons, List.filter_cons, List.filter_cons]
      by_cases h : y = x
      · rw [if_pos (by simp [h]), if_pos (by simp [h])]
        unfold countPair at ih
        simp [ih]
      · rw [if_neg (by simp only [decide_eq_true_eq]; intro hh; exact h (hf y x hh)),
          if_neg (by simpa using h)]
        unfold countPair at ih
        exact ih

theorem countPair_map_zero (f : (List Name × Name) → (List Name × Name))
    (x : List Name × Name) (l : List (List Name × Name)) (h : ∀ a, f a ≠ x) :
    countPair x (l.map f) = 0 := by
  refine countPair_not_mem x _ ?_
  intro hm
  obtain ⟨a, _ha, haa⟩ := List.mem_map.mp hm
  exact h a haa

/-- The per-extension scan is the path-indexed file list filtered by the
glob match. -/
theorem collectExt_eq_filter (ext : Name) (cs : List Entry) :
    collectExt ext cs = (allFilesPaths cs).filter (fun pr => matchesExt ext pr.2) := by
  induction cs using forestInduction with
  | hnil => rfl
  | hfile n rest ih =>
      rw [collectExt_file, allFilesPaths_cons_file, ih, List.filter_cons]
      by_cases h : matchesExt ext n = true
      · simp [h]
      · simp [h]
  | hdir d ch rest ihc ihr =>
      rw [collectExt_dir, allFilesPaths_cons_dir, ihc, ihr, List.filter_append,
        List.filter_map]
      congr 1

/-- Two prefixes of the same string are comparable. -/
theorem isPrefOf_total (l : Name) : ∀ a b : Name, isPrefOf a l = true →
    isPrefOf b l = true → isPrefOf a b = true ∨ isPrefOf b a = true := by
  induction l with
  | nil =>
      intro a b ha hb
      cases a with
      | nil => exact Or.inl rfl
      | cons x xs => exact absurd ha (by rw [isPrefOf]; exact Bool.false_ne_true)
  | cons c l ih =>
      intro a b ha hb
      cases a with
      | nil => exact Or.inl rfl
      | cons x xs =>
          cases b with
          | nil => exact Or.inr rfl
          | cons y ys =>
              rw [isPrefOf, Bool.and_eq_true] at ha hb
              have hx : x = c := of_decide_eq_true ha.1
              have hy : y = c := of_decide_eq_true hb.1
              rcases ih xs ys ha.2 hb.2 with h | h
              · left
                rw [isPrefOf, Bool.and_eq_true]
                exact ⟨by simp [hx, hy], h⟩
              · right
                rw [isPrefOf, Bool.and_eq_true]
                exact ⟨by simp [hx, hy], h⟩

/-- Two suffixes of the same string are comparable. -/
theorem isSuffOf_total (l a b : Name) (ha : isSuffOf a l = true)
    (hb : isSuffOf b l = true) : isSuffOf a b = true ∨ isSuffOf b a = true := by
  unfold isSuffOf at ha hb ⊢
  exact isPrefOf_total l.reverse a.reverse b.reverse ha hb

/-- A name matches at most one allow-listed extension pattern. -/
theorem extension_unique (n e1 e2 : Name)
    (h1m : e1 ∈ videoExtensions ++ imageExtensions)
    (h2m : e2 ∈ videoExtensions ++ imageExtensions)
    (h1 : matchesExt e1 n = true) (h2 : matchesExt e2 n = true) : e1 = e2 := by
  by_contra hne
  unfold matchesExt at h1 h2
  have key : ∀ a ∈ videoExtensions ++ imageExtensions,
      ∀ b ∈ videoExtensions ++ imageExtensions, a ≠ b →
      isSuffOf ('.' :: a) ('.' :: b) = false := by decide
  rcases isSuffOf_total (pyLower n) ('.' :: e1) ('.' :: e2) h1 h2 with hs | hs
  · rw [key e1 h1m e2 h2m hne] at hs
    exact Bool.false_ne_true hs
  · rw [key e2 h2m e1 h1m (fun h => hne h.symm)] at hs
    exact Bool.false_ne_true hs

/-- The scan over an extension list finds a file exactly once when exactly
one listed extension matches it. -/
theorem countPair_scan (cs : List Entry) (p : List Name) (n : Name)
    (hnd : (allFilesPaths cs).Nodup) (hm : (p, n) ∈ allFilesPaths cs) :
    ∀ exts : List Name, ∀ e0 ∈ exts, matchesExt e0 n = true → exts.Nodup →
    (∀ e1 ∈ exts, ∀ e2 ∈ exts, matchesExt e1 n = true → matchesExt e2 n = true → e1 = e2) →
    countPair (p, n) ((exts.map (fun e => collectExt e cs)).flatten) = 1 := by
  intro exts
  induction exts with
  | nil => intro e0 he0; cases he0
  | cons e rest ih =>
      intro e0 he0 hm0 hnde huniq
      rw [List.map_cons, List.flatten_cons, countPair_append]
      by_cases hem : matchesExt e n = true
      · have h1 : countPair (p, n) (collectExt e cs) = 1 := by
          rw [collectExt_eq_filter]
          exact countPair_eq_one _ _ (hnd.filter _)
            (List.mem_filter.mpr ⟨hm, by simpa using hem⟩)
        have h0 : countPair (p, n) ((rest.map (fun e => collectExt e cs)).flatten) = 0 := by
          apply countPair_not_mem
          intro hmem
          obtain ⟨l, hl, hpl⟩ := List.mem_flatten.mp hmem
          obtain ⟨e2, he2, rfl⟩ := List.mem_map.mp hl
          rw [collectExt_eq_filter] at hpl
          have hm2 : matchesExt e2 n = true := by
            have := (List.mem_filter.mp hpl).2
            simpa using this
          have : e2 = e :=
            huniq e2 (by simp [he2]) e (by simp) hm2 hem
          exact (List.nodup_cons.mp hnde).1 (this ▸ he2)
        omega
      · have h1 : countPair (p, n) (collectExt e cs) = 0 := by
          rw [collectExt_eq_filter]
          apply countPair_not_mem
          intro hmem
          have := (List.mem_filter.mp hmem).2
          exact hem (by simpa using this)
        have he0' : e0 ∈ rest := by
          rcases List.mem_cons.mp he0 with rfl | h
          · exact absurd hm0 hem
          · exact h
        rw [h1, ih e0 he0' hm0 (List.nodup_cons.mp hnde).2
          (fun e1 h1' e2 h2' => huniq e1 (by simp [h1']) e2 (by simp [h2']))]

/-- Appending `.mp4` never produces the same name as appending `.jpg`. -/
theorem append_mp4_ne_append_jpg (a b : Name) : a ++ mp4Ext ≠ b ++ jpgExt := by
  intro h
  have h2 := congrArg (fun l => l.reverse.headI) h
  simp [mp4Ext, jpgExt, List.reverse_append] at h2

/-- C3: for every file under the input root whose extension matches the
video (resp. image) allow-list case-insensitively, the conversion stages
write exactly one output, at the mirrored relative parent path, named by
appending a literal `.mp4` (resp. `.jpg`) to the full original file name.
(The hypothesis that the path-indexed file list has no duplicates is the
filesystem invariant that a directory has no two equally named entries.) -/
theorem claim_C3 (cs : List Entry) (p : List Name) (n : Name)
    (hnd : (allFilesPaths cs).Nodup) (hm : (p, n) ∈ allFilesPaths cs) :
    (∀ ext ∈ videoExtensions, matchesExt ext n = true →
      countPair (p, n ++ mp4Ext) (conversionOutputs cs) = 1) ∧
    (∀ ext ∈ imageExtensions, matchesExt ext n = true →
      countPair (p, n ++ jpgExt) (conversionOutputs cs) = 1) := by
  have hvinj : ∀ a b : List Name × Name,
      (a.1, a.2 ++ mp4Ext) = (b.1, b.2 ++ mp4Ext) → a = b := by
    intro a b h
    have h1 := congrArg Prod.fst h
    have h2 := congrArg Prod.snd h
    simp only at h1 h2
    exact Prod.ext h1 (List.append_cancel_right h2)
  have hiinj : ∀ a b : List Name × Name,
      (a.1, a.2 ++ jpgExt) = (b.1, b.2 ++ jpgExt) → a = b := by
    intro a b h
    have h1 := congrArg Prod.fst h
    have h2 := congrArg Prod.snd h
    simp only at h1 h2
    exact Prod.ext h1 (List.append_cancel_right h2)
  constructor
  · intro ext hext hmatch
    unfold conversionOutputs convert_videos_outputs convert_images_outputs
    rw [countPair_append]
    have hv : countPair (p, n ++ mp4Ext)
        ((get_all_videos cs).map (fun pr => (pr.1, pr.2 ++ mp4Ext))) = 1 := by
      have h2 := countPair_map (fun pr => (pr.1, pr.2 ++ mp4Ext)) hvinj (p, n)
        (get_all_videos cs)
      unfold get_all_videos at h2 ⊢
      rw [h2]
      exact countPair_scan cs p n hnd hm videoExtensions ext hext hmatch (by decide)
        (fun e1 h1' e2 h2' => extension_unique n e1 e2
          (List.mem_append.mpr (Or.inl h1')) (List.mem_append.mpr (Or.inl h2')))
    have hi : countPair (p, n ++ mp4Ext)
        ((get_all_images cs).map (fun pr => (pr.1, pr.2 ++ jpgExt))) = 0 := by
      refine countPair_map_zero _ _ _ ?_
      intro a h
      have := congrArg Prod.snd h
      simp only at this
      exact append_mp4_ne_append_jpg n a.2 (this.symm)
    rw [hv, hi]
  · intro ext hext hmatch
    unfold conversionOutputs convert_videos_outputs convert_images_outputs
    rw [countPair_append]
    have hv : countPair (p, n ++ jpgExt)
        ((get_all_videos cs).map (fun pr => (pr.1, pr.2 ++ mp4Ext))) = 0 := by
      refine countPair_map_zero _ _ _ ?_
      intro a h
      have := congrArg Prod.snd h
      simp only at this
      exact append_mp4_ne_append_jpg a.2 n this
    have hi : countPair (p, n ++ jpgExt)
        ((get_all_images cs).map (fun pr => (pr.1, pr.2 ++ jpgExt))) = 1 := by
      have h2 := countPair_map (fun pr => (pr.1, pr.2 ++ jpgExt)) hiinj (p, n)
        (get_all_images cs)
      unfold get_all_images at h2 ⊢
      rw [h2]
      exact countPair_scan cs p n hnd hm imageExtensions ext hext hmatch (by decide)
        (fun e1 h1' e2 h2' => extension_unique n e1 e2
          (List.mem_append.mpr (Or.inr h1')) (List.mem_append.mpr (Or.inr h2')))
    rw [hv, hi]

/-- Witness for C3: one video (uppercase extension, in a subfolder) and one
image at the root. -/
theorem claim_C3_witness :
    countPair ([['d']], ['c', '.', 'M', 'O', 'V'] ++ mp4Ext)
      (conversionOutputs
        [.dir ['d'] [.file ['c', '.', 'M', 'O', 'V']], .file ['b', '.', 'p', 'n', 'g']]) = 1 ∧
    countPair ([], ['b', '.', 'p', 'n', 'g'] ++ jpgExt)
      (conversionOutputs
        [.dir ['d'] [.file ['c', '.', 'M', 'O', 'V']], .file ['b', '.', 'p', 'n', 'g']]) = 1 :=
  ⟨(claim_C3 [.dir ['d'] [.file ['c', '.', 'M', 'O', 'V']], .file ['b', '.', 'p', 'n', 'g']]
      [['d']] ['c', '.', 'M', 'O', 'V'] (by decide) (by decide)).1
      ['m', 'o', 'v'] (by decide) (by decide),
   (claim_C3 [.dir ['d'] [.file ['c', '.', 'M', 'O', 'V']], .file ['b', '.', 'p', 'n', 'g']]
      [] ['b', '.', 'p', 'n', 'g'] (by decide) (by decide)).2
      ['p', 'n', 'g'] (by decide) (by decide)⟩

/-! ## Claim C10: the unused twin folder is created empty and swept away -/

theorem isFileWith_isFile (p : Name → Bool) (e : Entry)
    (h : Entry.isFileWith p e = true) : e.isFile = true := by
  cases e with
  | file n => rfl
  | dir n ch => simp [Entry.isFileWith] at h

theorem isJpgName_isMediaName (n : Name) (h : isJpgName n = true) :
    isMediaName n = true := by
  unfold isJpgName at h
  unfold isMediaName
  simp [h]

theorem isMp4Name_not_isJpgName (n : Name) (h : isMp4Name n = true) :
    isJpgName n = false := by
  unfold isMp4Name at h
  unfold isJpgName
  rw [of_decide_eq_true h]
  decide

/-- `renameGo` distributes over an append, shifting the file index. -/
theorem renameGo_append (dn : Name) (total : Nat) (as bs : List Entry) (k : Nat) :
    renameGo dn total (as ++ bs) k =
      renameGo dn total as k ++ renameGo dn total bs (k + countFiles as) := by
  induction as generalizing k with
  | nil => simp [renameGo_nil, countFiles]
  | cons c rest ih =>
      cases c with
      | file n =>
          rw [List.cons_append, renameGo_file, renameGo_file, ih (k + 1)]
          have hcf : countFiles (.file n :: rest) = countFiles rest + 1 := by
            simp [countFiles, List.filter_cons, Entry.isFile]
          rw [hcf, List.cons_append]
          have harg : k + 1 + countFiles rest = k + (countFiles rest + 1) := by omega
          rw [harg]
      | dir m ch =>
          rw [List.cons_append, renameGo_dir, renameGo_dir, ih k]
          have : countFiles (.dir m ch :: rest) = countFiles rest := by
            simp [countFiles, List.filter_cons, Entry.isFile]
          rw [this, List.cons_append]

/-- `pruneList` distributes over an append. -/
theorem pruneList_append (as bs : List Entry) :
    pruneList (as ++ bs) = pruneList as ++ pruneList bs := by
  induction as with
  | nil => simp [pruneList_nil]
  | cons c rest ih =>
      rw [List.cons_append, pruneList, pruneList, ih, List.append_assoc]

/-- A listing of files only is left intact by the pruner. -/
theorem pruneList_of_files (cs : List Entry) (h : ∀ e ∈ cs, e.isFile = true) :
    pruneList cs = cs := by
  induction cs with
  | nil => rfl
  | cons c rest ih =>
      cases c with
      | file n => rw [pruneList_file, ih (fun e he => h e (by simp [he]))]
      | dir m ch =>
          exfalso
          have := h (.dir m ch) (by simp)
          simp [Entry.isFile] at this

/-- The renamer maps a files-only listing to a files-only listing. -/
theorem renameGo_files (dn : Name) (total : Nat) (cs : List Entry) (k : Nat)
    (h : ∀ e ∈ cs, e.isFile = true) :
    ∀ e ∈ renameGo dn total cs k, e.isFile = true := by
  induction cs generalizing k with
  | nil => simp [renameGo_nil]
  | cons c rest ih =>
      cases c with
      | file n =>
          rw [renameGo_file]
          intro e he
          rcases List.mem_cons.mp he with rfl | he
          · rfl
          · exact ih (k + 1) (fun e' he' => h e' (by simp [he'])) e he
      | dir m ch =>
          exfalso
          have := h (.dir m ch) (by simp)
          simp [Entry.isFile] at this

/-- Pruning preserves entry names. -/
theorem mem_pruneList_name (cs : List Entry) (e : Entry) (he : e ∈ pruneList cs) :
    ∃ e2 ∈ cs, e.name = e2.name := by
  induction cs with
  | nil => simp [pruneList_nil] at he
  | cons c rest ih =>
      rw [pruneList] at he
      rcases List.mem_append.mp he with he2 | he2
      · cases c with
        | file n =>
            rw [pruneStep] at he2
            rcases List.mem_singleton.mp he2 with rfl
            exact ⟨.file n, by simp, rfl⟩
        | dir m ch =>
            rw [pruneStep] at he2
            by_cases hemp : (pruneList ch).isEmpty = true
            · rw [if_pos hemp] at he2
              simp at he2
            · rw [if_neg hemp] at he2
              rcases List.mem_singleton.mp he2 with rfl
              exact ⟨.dir m ch, by simp, rfl⟩
      · obtain ⟨e2, he2m, hn⟩ := ih he2
        exact ⟨e2, by simp [he2m], hn⟩

/-- A rename target is never a single-character name such as `V` or `P`. -/
theorem newName_ne_single (dn : Name) (total k : Nat) (n : Name) (c : Char) :
    newName dn total k n ≠ [c] := by
  intro h
  have hlen := congrArg List.length h
  have hpad : 1 ≤ (getPaddedNumber k total).length := by
    unfold getPaddedNumber zfill
    rw [List.length_append, List.length_replicate]
    have h1 : 1 ≤ (natToStr k).length := by
      cases hh : natToStr k with
      | nil => exact absurd hh (natToStr_ne_nil k)
      | cons a l => simp
    omega
  unfold newName at hlen
  by_cases hp : dn = pName
  · rw [if_pos hp] at hlen
    simp only [jpgExt, List.length_append, List.length_cons, List.length_nil] at hlen
    omega
  · rw [if_neg hp] at hlen
    by_cases hv : dn = vName
    · rw [if_pos hv] at hlen
      simp only [mp4Ext, List.length_append, List.length_cons, List.length_nil] at hlen
      omega
    · rw [if_neg hv] at hlen
      simp only [List.length_append, List.length_cons, List.length_nil] at hlen
      omega

/-- In a listing without `V`/`P` entries, no entry is named `V` or `P`. -/
theorem hasVPB_false_names (cs : List Entry) (h : hasVPB cs = false) :
    ∀ e ∈ cs, e.name ≠ vName ∧ e.name ≠ pName := by
  intro e he
  unfold hasVPB at h
  rw [List.any_eq_false] at h
  have := h e he
  simp only [Bool.or_eq_true, decide_eq_true_eq] at this
  push_neg at this
  exact this

/-- C10 (implicit): when Phase B finds direct media files in a directory
with no `V`/`P` child, it creates both a `V` and a `P` subfolder even when
every moved file is an `.mp4`; the unused `P` folder is created empty,
survives the renamer, and the final `clear_empty_folders` sweep deletes it,
so the directory ends the pipeline with a `V` folder and no `P` entry. -/
theorem claim_C10 (root : Name) (cs : List Entry)
    (hv : root ≠ vName) (hp : root ≠ pName)
    (hnovp : hasVPB cs = false)
    (hmedia : (cs.filter (Entry.isFileWith isMediaName)).isEmpty = false)
    (hallmp4 : ∀ e ∈ cs, Entry.isFileWith isMediaName e = true →
      Entry.isFileWith isMp4Name e = true) :
    (∃ ds, phaseBEntry (.dir root cs) = .dir root ds ∧
      .dir pName [] ∈ ds ∧
      .dir vName (cs.filter (Entry.isFileWith isMp4Name)) ∈ ds) ∧
    (∃ fs, clear_empty_folders (rename_files (phaseBEntry (.dir root cs))) = .dir root fs ∧
      (∃ ch, ch ≠ [] ∧ .dir vName ch ∈ fs) ∧
      ∀ e ∈ fs, e.name ≠ pName) := by
  have hfiltermp4 : cs.filter (Entry.isFileWith isMediaName) =
      cs.filter (Entry.isFileWith isMp4Name) := by
    refine List.filter_congr ?_
    intro e he
    cases hm : Entry.isFileWith isMediaName e with
    | true => rw [hallmp4 e he hm]
    | false =>
        cases hm4 : Entry.isFileWith isMp4Name e with
        | true =>
            exfalso
            cases e with
            | file n =>
                simp only [Entry.isFileWith] at hm hm4
                unfold isMediaName at hm
                unfold isMp4Name at hm4
                rw [hm4] at hm
                simp at hm
            | dir m ch => simp [Entry.isFileWith] at hm4
        | false => rfl
  have hjpgnil : cs.filter (Entry.isFileWith isJpgName) = [] := by
    rw [List.filter_eq_nil_iff]
    intro e he
    intro hj
    have hmed : Entry.isFileWith isMediaName e = true := by
      cases e with
      | file n =>
          simp only [Entry.isFileWith] at hj ⊢
          exact isJpgName_isMediaName n hj
      | dir m ch => simp [Entry.isFileWith] at hj
    have hm4 := hallmp4 e he hmed
    cases e with
    | file n =>
        simp only [Entry.isFileWith] at hj hm4
        rw [isMp4Name_not_isJpgName n hm4] at hj
        exact Bool.false_ne_true hj
    | dir m ch => simp [Entry.isFileWith] at hj
  have hstep : stepDir (cs.map phaseBEntry) =
      (cs.map phaseBEntry).filter (fun e => !(Entry.isFileWith isMediaName e)) ++
        [.dir vName (cs.filter (Entry.isFileWith isMp4Name)), .dir pName []] := by
    unfold stepDir
    rw [if_neg (by rw [hasVPB_map_phaseB, hnovp]; exact Bool.false_ne_true)]
    rw [if_neg (by
      rw [filter_isFileWith_map_phaseB, hmedia]
      exact Bool.false_ne_true)]
    rw [filter_isFileWith_map_phaseB isMp4Name, filter_isFileWith_map_phaseB isJpgName,
      hjpgnil]
  have horg : phaseBEntry (.dir root cs) =
      .dir root ((cs.map phaseBEntry).filter (fun e => !(Entry.isFileWith isMediaName e)) ++
        [.dir vName (cs.filter (Entry.isFileWith isMp4Name)), .dir pName []]) := by
    rw [phaseBEntry_dir, if_neg (by tauto), hstep]
  have hMfiles : ∀ e ∈ cs.filter (Entry.isFileWith isMp4Name), e.isFile = true :=
    fun e he => isFileWith_isFile _ _ (List.of_mem_filter he)
  have hMne : cs.filter (Entry.isFileWith isMp4Name) ≠ [] := by
    rw [← hfiltermp4]
    intro h
    rw [h] at hmedia
    simp at hmedia
  constructor
  · exact ⟨_, horg, by simp, by simp⟩
  · rw [horg]
    have hren : rename_files (.dir root
        ((cs.map phaseBEntry).filter (fun e => !(Entry.isFileWith isMediaName e)) ++
          [Entry.dir vName (cs.filter (Entry.isFileWith isMp4Name)), Entry.dir pName []])) =
        .dir root (renameGo root
          (countFiles ((cs.map phaseBEntry).filter (fun e => !(Entry.isFileWith isMediaName e)) ++
            [Entry.dir vName (cs.filter (Entry.isFileWith isMp4Name)), Entry.dir pName []]))
          ((cs.map phaseBEntry).filter (fun e => !(Entry.isFileWith isMediaName e)) ++
            [Entry.dir vName (cs.filter (Entry.isFileWith isMp4Name)), Entry.dir pName []]) 1) := rfl
    set A := (cs.map phaseBEntry).filter (fun e => !(Entry.isFileWith isMediaName e)) with hA
    set M := cs.filter (Entry.isFileWith isMp4Name) with hM
    set N := countFiles (A ++ [Entry.dir vName M, Entry.dir pName []]) with hN
    rw [hren, renameGo_append, renameGo_dir, renameGo_dir, renameGo_nil, renameGo_nil]
    have hVfiles : pruneList (renameGo vName (countFiles M) M 1) =
        renameGo vName (countFiles M) M 1 :=
      pruneList_of_files _ (renameGo_files _ _ _ _ hMfiles)
    have hVne : renameGo vName (countFiles M) M 1 ≠ [] := by
      cases hMc : M with
      | nil => exact absurd hMc hMne
      | cons c rest =>
          rw [renameGo]
          simp
    have hsweep : clear_empty_folders (.dir root
        (renameGo root N A 1 ++
          [Entry.dir vName (renameGo vName (countFiles M) M 1), Entry.dir pName []])) =
        .dir root (pruneList (renameGo root N A 1) ++
          [Entry.dir vName (renameGo vName (countFiles M) M 1)]) := by
      show Entry.dir root (pruneList (renameGo root N A 1 ++
        [Entry.dir vName (renameGo vName (countFiles M) M 1), Entry.dir pName []])) = _
      rw [pruneList_append]
      congr 1
      rw [pruneList_dir, pruneList_dir, pruneList_nil, hVfiles]
      rw [if_neg (by simpa using hVne)]
      simp [pruneList_nil]
    rw [hsweep]
    refine ⟨_, rfl, ?_, ?_⟩
    · exact ⟨renameGo vName (countFiles M) M 1, hVne, by simp⟩
    · intro e he
      rcases List.mem_append.mp he with he2 | he2
      · obtain ⟨e2, he2m, hn⟩ := mem_pruneList_name _ _ he2
        rcases mem_renameGo root N A 1 e2 he2m with ⟨n', j, rfl⟩ | ⟨m, ch, rfl, hmem⟩
        · rw [hn]
          intro hc
          exact newName_ne_single root N j n' 'P' (by simpa [pName, Entry.name] using hc)
        · rw [hn]
          have hmem2 : Entry.dir m ch ∈ cs.map phaseBEntry := List.mem_of_mem_filter hmem
          obtain ⟨c, hc, hcc⟩ := List.mem_map.mp hmem2
          have hmc : m = c.name := by
            have h3 := phaseBEntry_name c
            rw [hcc] at h3
            exact h3
          rw [Entry.name, hmc]
          exact (hasVPB_false_names cs hnovp c hc).2
      · rcases List.mem_singleton.mp he2 with rfl
        simp [Entry.name, vName, pName]

/-- Witness for C10: a root holding a single `.mp4` file. -/
theorem claim_C10_witness :
    (∃ ds, phaseBEntry (.dir ['r'] [.file ['a', '.', 'm', 'p', '4']]) = .dir ['r'] ds ∧
      .dir pName [] ∈ ds ∧
      .dir vName ([.file ['a', '.', 'm', 'p', '4']].filter
        (Entry.isFileWith isMp4Name)) ∈ ds) ∧
    (∃ fs, clear_empty_folders (rename_files
        (phaseBEntry (.dir ['r'] [.file ['a', '.', 'm', 'p', '4']]))) = .dir ['r'] fs ∧
      (∃ ch, ch ≠ [] ∧ .dir vName ch ∈ fs) ∧
      ∀ e ∈ fs, e.name ≠ pName) :=
  claim_C10 ['r'] [.file ['a', '.', 'm', 'p', '4']]
    (by decide) (by decide) (by decide) (by decide) (by decide)

/-! ## Claim C1: the post-organization tree shape

Phase B never descends into a directory named `V` or `P` (lines 140 and
171), so a media file lying in a directory strictly below a `V`/`P` folder
is never moved, even though its directory had no `V`/`P` child — the claim
as stated fails there.  Restricted to the directories Phase B actually
visits it holds, which is the amended claim. -/

theorem stepDir_skip (cs : List Entry) (h : hasVPB cs = true) : stepDir cs = cs := by
  unfold stepDir
  rw [if_pos h]

theorem stepDir_nomedia (cs : List Entry)
    (h : (cs.filter (Entry.isFileWith isMediaName)).isEmpty = true) :
    stepDir cs = cs := by
  unfold stepDir
  by_cases h1 : hasVPB cs = true
  · rw [if_pos h1]
  · rw [if_neg h1, if_pos h]

theorem stepDir_move (cs : List Entry) (h1 : hasVPB cs = false)
    (h2 : (cs.filter (Entry.isFileWith isMediaName)).isEmpty = false) :
    stepDir cs = cs.filter (fun e => !(Entry.isFileWith isMediaName e)) ++
      [.dir vName (cs.filter (Entry.isFileWith isMp4Name)),
       .dir pName (cs.filter (Entry.isFileWith isJpgName))] := by
  unfold stepDir
  rw [if_neg (by rw [h1]; exact Bool.false_ne_true),
    if_neg (by rw [h2]; exact Bool.false_ne_true)]

theorem findDirNamed_append (c : Name) (as bs : List Entry) :
    findDirNamed c (as ++ bs) =
      match findDirNamed c as with
      | some ch => some ch
      | none => findDirNamed c bs := by
  induction as with
  | nil => rw [List.nil_append]; rfl
  | cons a rest ih =>
      cases a with
      | file n =>
          rw [List.cons_append, findDirNamed, findDirNamed]
          exact ih
      | dir m ch =>
          rw [List.cons_append, findDirNamed, findDirNamed]
          by_cases h : m = c
          · rw [if_pos h, if_pos h]
          · rw [if_neg h, if_neg h]
            exact ih

theorem findDirNamed_filter_nonmedia (c : Name) (ds : List Entry) :
    findDirNamed c (ds.filter (fun e => !(Entry.isFileWith isMediaName e))) =
      findDirNamed c ds := by
  induction ds with
  | nil => rfl
  | cons a rest ih =>
      cases a with
      | file n =>
          rw [List.filter_cons]
          cases h : Entry.isFileWith isMediaName (.file n) with
          | true =>
              rw [if_neg (by simp [h])]
              rw [findDirNamed]
              exact ih
          | false =>
              rw [if_pos (by simp [h])]
              rw [findDirNamed, findDirNamed]
              exact ih
      | dir m ch =>
          rw [List.filter_cons, if_pos (by simp [Entry.isFileWith])]
          rw [findDirNamed, findDirNamed]
          by_cases h : m = c
          · rw [if_pos h, if_pos h]
          · rw [if_neg h, if_neg h]
            exact ih

theorem findDirNamed_stepDir (c : Name) (hv : c ≠ vName) (hp : c ≠ pName)
    (ds : List Entry) : findDirNamed c (stepDir ds) = findDirNamed c ds := by
  by_cases h1 : hasVPB ds = true
  · rw [stepDir_skip ds h1]
  · by_cases h2 : (ds.filter (Entry.isFileWith isMediaName)).isEmpty = true
    · rw [stepDir_nomedia ds h2]
    · rw [stepDir_move ds (by simpa using h1) (by simpa using h2)]
      rw [findDirNamed_append, findDirNamed_filter_nonmedia]
      cases hf : findDirNamed c ds with
      | some ch => rfl
      | none =>
          rw [findDirNamed, if_neg (fun hh => hv hh.symm),
            findDirNamed, if_neg (fun hh => hp hh.symm)]
          rfl

theorem findDirNamed_map_phaseB (c : Name) (hv : c ≠ vName) (hp : c ≠ pName)
    (cs : List Entry) :
    findDirNamed c (cs.map phaseBEntry) =
      (findDirNamed c cs).map (fun ch => stepDir (ch.map phaseBEntry)) := by
  induction cs with
  | nil => rfl
  | cons a rest ih =>
      cases a with
      | file n =>
          rw [List.map_cons, phaseBEntry_file, findDirNamed, findDirNamed]
          exact ih
      | dir m ch =>
          rw [List.map_cons, phaseBEntry_dir]
          by_cases hm : m = vName ∨ m = pName
          · rw [if_pos hm]
            have hmc : m ≠ c := by
              rcases hm with rfl | rfl
              · exact fun hh => hv hh.symm
              · exact fun hh => hp hh.symm
            rw [findDirNamed, findDirNamed, if_neg hmc, if_neg hmc]
            exact ih
          · rw [if_neg hm, findDirNamed, findDirNamed]
            by_cases hmc : m = c
            · rw [if_pos hmc, if_pos hmc]
              rfl
            · rw [if_neg hmc, if_neg hmc]
              exact ih

/-- Looking up a Phase-B-visited path in the Phase B output gives the
single-directory step applied to the recursively processed listing found
in the input. -/
theorem lookup_phaseB (path : List Name) :
    ∀ e : Entry, visitedPath e.name path →
    lookupDir (phaseBEntry e) path =
      (lookupDir e path).map (fun cs => stepDir (cs.map phaseBEntry)) := by
  induction path with
  | nil =>
      intro e hvis
      cases e with
      | file n => rw [phaseBEntry_file]; rfl
      | dir n cs =>
          have hn := hvis.1
          rw [phaseBEntry_dir, if_neg (by tauto)]
          rfl
  | cons c p ih =>
      intro e hvis
      obtain ⟨⟨hr1, hr2⟩, hcomp⟩ := hvis
      have hc := hcomp c (by simp)
      cases e with
      | file n => rw [phaseBEntry_file]; rfl
      | dir n cs =>
          rw [phaseBEntry_dir, if_neg (by tauto)]
          show lookupIn (stepDir (cs.map phaseBEntry)) (c :: p) = _
          rw [lookupIn, findDirNamed_stepDir c hc.1 hc.2,
            findDirNamed_map_phaseB c hc.1 hc.2]
          cases hf : findDirNamed c cs with
          | none =>
              show none = (lookupIn cs (c :: p)).map _
              rw [lookupIn, hf]
              rfl
          | some ch =>
              have hrec := ih (.dir c ch)
                ⟨⟨hc.1, hc.2⟩, fun x hx => hcomp x (by simp [hx])⟩
              rw [phaseBEntry_dir, if_neg (by tauto)] at hrec
              show lookupIn (stepDir (ch.map phaseBEntry)) p = (lookupIn cs (c :: p)).map _
              rw [lookupIn, hf]
              exact hrec

theorem countNamed_append (m : Name) (as bs : List Entry) :
    countNamed m (as ++ bs) = countNamed m as + countNamed m bs := by
  unfold countNamed
  rw [List.filter_append, List.length_append]

theorem countNamed_eq_zero (m : Name) (cs : List Entry)
    (h : ∀ e ∈ cs, e.name ≠ m) : countNamed m cs = 0 := by
  unfold countNamed
  have hfil : cs.filter (fun e => e.name = m) = [] := by
    rw [List.filter_eq_nil_iff]
    intro e he
    simpa using h e he
  rw [hfil]
  rfl

theorem hasMediaB_map_phaseB (cs : List Entry) :
    hasMediaB (cs.map phaseBEntry) = hasMediaB cs := by
  unfold hasMediaB
  induction cs with
  | nil => rfl
  | cons a rest ih =>
      cases a with
      | file n => simp [phaseBEntry_file, ih]
      | dir m ch =>
          obtain ⟨ds, hds⟩ := phaseBEntry_dir_shape m ch
          simp [hds, ih, Entry.isFileWith]

theorem hasMediaB_iff_filter (cs : List Entry) :
    hasMediaB cs = true ↔ cs.filter (Entry.isFileWith isMediaName) ≠ [] := by
  unfold hasMediaB
  rw [List.any_eq_true]
  constructor
  · rintro ⟨e, he, hpe⟩ hnil
    have := List.filter_eq_nil_iff.mp hnil e he
    exact this hpe
  · intro h
    cases hf : cs.filter (Entry.isFileWith isMediaName) with
    | nil => exact absurd hf h
    | cons e rest =>
        have he : e ∈ cs.filter (Entry.isFileWith isMediaName) := by rw [hf]; simp
        exact ⟨e, List.mem_of_mem_filter he, List.of_mem_filter he⟩

/-- After the move step, a directory holds no direct media file and exactly
one `V` child and one `P` child. -/
theorem stepDir_move_shape (cs : List Entry) (h1 : hasVPB cs = false)
    (h2 : hasMediaB cs = true) :
    countNamed vName (stepDir cs) = 1 ∧ countNamed pName (stepDir cs) = 1 ∧
    hasMediaB (stepDir cs) = false := by
  have h2' : (cs.filter (Entry.isFileWith isMediaName)).isEmpty = false := by
    have := (hasMediaB_iff_filter cs).mp h2
    cases hf : cs.filter (Entry.isFileWith isMediaName) with
    | nil => exact absurd hf this
    | cons a rest => rfl
  rw [stepDir_move cs h1 h2']
  have hnames := hasVPB_false_names cs h1
  have hzero : ∀ m : Name,
      countNamed m (cs.filter (fun e => !(Entry.isFileWith isMediaName e))) =
        (if m = vName then 0 else 0) → True := fun _ _ => trivial
  have hAv : countNamed vName
      (cs.filter (fun e => !(Entry.isFileWith isMediaName e))) = 0 :=
    countNamed_eq_zero _ _ (fun e he => (hnames e (List.mem_of_mem_filter he)).1)
  have hAp : countNamed pName
      (cs.filter (fun e => !(Entry.isFileWith isMediaName e))) = 0 :=
    countNamed_eq_zero _ _ (fun e he => (hnames e (List.mem_of_mem_filter he)).2)
  refine ⟨?_, ?_, ?_⟩
  · rw [countNamed_append, hAv]
    have : countNamed vName
        [Entry.dir vName (cs.filter (Entry.isFileWith isMp4Name)),
         Entry.dir pName (cs.filter (Entry.isFileWith isJpgName))] = 1 := by
      unfold countNamed
      rw [List.filter_cons, List.filter_cons]
      rw [if_pos (by simp [Entry.name]), if_neg (by simp [Entry.name, pName, vName])]
      rfl
    rw [this]
  · rw [countNamed_append, hAp]
    have : countNamed pName
        [Entry.dir vName (cs.filter (Entry.isFileWith isMp4Name)),
         Entry.dir pName (cs.filter (Entry.isFileWith isJpgName))] = 1 := by
      unfold countNamed
      rw [List.filter_cons, List.filter_cons]
      rw [if_neg (by simp [Entry.name, pName, vName]), if_pos (by simp [Entry.name])]
      rfl
    rw [this]
  · unfold hasMediaB
    rw [List.any_append]
    have hA : (cs.filter (fun e => !(Entry.isFileWith isMediaName e))).any
        (Entry.isFileWith isMediaName) = false := by
      rw [List.any_eq_false]
      intro e he
      have := List.of_mem_filter he
      simp only [Bool.not_eq_true'] at this
      rw [this]
      exact Bool.false_ne_true
    rw [hA]
    rfl

/-- C1 amended: after `organize_files`, (a) every Phase-B-visited directory
that held a direct media file and no `V`/`P` child gets exactly one `V`
child, one `P` child, and no remaining direct media file; and (b) any
directory of the result retaining a direct media file is either not
visited by Phase B (it is a `V`/`P` folder, lies inside one, or the root is
named `V`/`P`) or had a pre-existing `V`/`P` child. -/
theorem claim_C1_amended (t : Entry) :
    (∀ path cs,
      visitedPath (clear_empty_folders (phaseAEntry t)).name path →
      lookupDir (clear_empty_folders (phaseAEntry t)) path = some cs →
      hasMediaB cs = true → hasVPB cs = false →
      lookupDir (organize_files t) path = some (stepDir (cs.map phaseBEntry)) ∧
      countNamed vName (stepDir (cs.map phaseBEntry)) = 1 ∧
      countNamed pName (stepDir (cs.map phaseBEntry)) = 1 ∧
      hasMediaB (stepDir (cs.map phaseBEntry)) = false) ∧
    (∀ path cs', lookupDir (organize_files t) path = some cs' →
      hasMediaB cs' = true →
      ¬ visitedPath (clear_empty_folders (phaseAEntry t)).name path ∨
        ∃ cs, lookupDir (clear_empty_folders (phaseAEntry t)) path = some cs ∧
          hasVPB cs = true) := by
  constructor
  · intro path cs hvis hlk hmed hnovp
    have hpost := lookup_phaseB path (clear_empty_folders (phaseAEntry t)) hvis
    rw [hlk] at hpost
    have hshape := stepDir_move_shape (cs.map phaseBEntry)
      (by rw [hasVPB_map_phaseB]; exact hnovp)
      (by rw [hasMediaB_map_phaseB]; exact hmed)
    exact ⟨hpost, hshape.1, hshape.2.1, hshape.2.2⟩
  · intro path cs' hlk hmed
    by_cases hvis : visitedPath (clear_empty_folders (phaseAEntry t)).name path
    · right
      have hpost0 := lookup_phaseB path (clear_empty_folders (phaseAEntry t)) hvis
      have hpost : lookupDir (organize_files t) path =
          Option.map (fun cs => stepDir (List.map phaseBEntry cs))
            (lookupDir (clear_empty_folders (phaseAEntry t)) path) := hpost0
      rw [hlk] at hpost
      cases hpre : lookupDir (clear_empty_folders (phaseAEntry t)) path with
      | none =>
          rw [hpre] at hpost
          cases hpost
      | some cs =>
          rw [hpre] at hpost
          have hcs' : cs' = stepDir (cs.map phaseBEntry) := by
            simpa using hpost
          refine ⟨cs, rfl, ?_⟩
          by_contra hnovp
          have hnovp' : hasVPB cs = false := by simpa using hnovp
          by_cases hm : hasMediaB cs = true
          · have hshape := stepDir_move_shape (cs.map phaseBEntry)
              (by rw [hasVPB_map_phaseB]; exact hnovp')
              (by rw [hasMediaB_map_phaseB]; exact hm)
            rw [hcs', hshape.2.2] at hmed
            exact Bool.false_ne_true hmed
          · have hm' : hasMediaB (cs.map phaseBEntry) = false := by
              rw [hasMediaB_map_phaseB]
              simpa using hm
            have hempty : ((cs.map phaseBEntry).filter
                (Entry.isFileWith isMediaName)).isEmpty = true := by
              have := (hasMediaB_iff_filter (cs.map phaseBEntry)).not
              cases hf : (cs.map phaseBEntry).filter (Entry.isFileWith isMediaName) with
              | nil => rfl
              | cons a rest =>
                  exfalso
                  have hmem : hasMediaB (cs.map phaseBEntry) = true :=
                    (hasMediaB_iff_filter _).mpr (by rw [hf]; simp)
                  rw [hm'] at hmem
                  exact Bool.false_ne_true hmem
            rw [hcs', stepDir_nomedia _ hempty] at hmed
            rw [hm'] at hmed
            exact Bool.false_ne_true hmed
    · exact Or.inl hvis

/-- Witness for the amended C1 at a root holding one media file. -/
theorem claim_C1_amended_witness :
    lookupDir (organize_files (.dir ['r'] [.file ['a', '.', 'm', 'p', '4']])) [] =
      some (stepDir ([Entry.file (tempName ['a', '.', 'm', 'p', '4'] 0)].map phaseBEntry)) ∧
    countNamed vName
      (stepDir ([Entry.file (tempName ['a', '.', 'm', 'p', '4'] 0)].map phaseBEntry)) = 1 ∧
    countNamed pName
      (stepDir ([Entry.file (tempName ['a', '.', 'm', 'p', '4'] 0)].map phaseBEntry)) = 1 ∧
    hasMediaB
      (stepDir ([Entry.file (tempName ['a', '.', 'm', 'p', '4'] 0)].map phaseBEntry)) = false :=
  (claim_C1_amended (.dir ['r'] [.file ['a', '.', 'm', 'p', '4']])).1 []
    [Entry.file (tempName ['a', '.', 'm', 'p', '4'] 0)]
    (by constructor
        · exact ⟨by decide, by decide⟩
        · intro c hc
          cases hc)
    (by decide) (by decide) (by decide)

/-- C1 counterexample: for the tree `r/V/s/x.mp4`, the directory `s`
(reached through the `V` folder) holds a direct `.mp4` file and has no
`V`/`P` child when Phase B runs, yet the organizer gives it no `V` child:
Phase B never descends below a directory named `V` or `P`. -/
theorem claim_C1_counterexample :
    ¬ specClaimC1 (.dir ['r'] [.dir vName [.dir ['s'] [.file ['x', '.', 'm', 'p', '4']]]]) := by
  intro h
  have h2 := h.1 [vName, ['s']]
    [Entry.file (tempName ['x', '.', 'm', 'p', '4'] 0)]
    [Entry.file (tempName ['x', '.', 'm', 'p', '4'] 0)]
    (by decide) (by decide) (by decide) (by decide)
  exact absurd h2.1 (by decide)

/-! ## Claim C4, part 1: the pipeline is the identity on organized trees -/

theorem allFiles_file_cons (n : Name) (rest : List Entry) :
    allFiles (.file n :: rest) = n :: allFiles rest := by
  rw [allFiles]

theorem allFiles_dir_cons (n : Name) (ch rest : List Entry) :
    allFiles (.dir n ch :: rest) = allFiles ch ++ allFiles rest := by
  rw [allFiles]

/-- A direct file's name is among the subtree's file names. -/
theorem mem_allFiles_of_file (cs : List Entry) (n : Name) (h : .file n ∈ cs) :
    n ∈ allFiles cs := by
  induction cs with
  | nil => cases h
  | cons c rest ih =>
      rcases List.mem_cons.mp h with rfl | h2
      · rw [allFiles_file_cons]
        simp
      · cases c with
        | file m =>
            rw [allFiles_file_cons]
            simp [ih h2]
        | dir m ch =>
            rw [allFiles_dir_cons]
            simp [ih h2]

/-- A media name is longer than one character, hence never `V` or `P`. -/
theorem media_name_ne_vp (n : Name) (h : isMediaName n = true) :
    n ≠ vName ∧ n ≠ pName := by
  obtain ⟨hne, d, hd, -, -⟩ := isMediaName_suffix n h
  have hlen : 4 ≤ n.length := by
    have h4 : ('.' :: d).length = 4 := by
      rw [← hd]; exact isMediaName_suffix_len n h
    have := congrArg List.length (pyStem_append_pySuffix n)
    rw [List.length_append, hd, h4] at this
    omega
  constructor <;> intro hh <;> rw [hh] at hlen <;> simp [vName, pName] at hlen

/-- A name whose `pathlib` suffix is literally `.mp4` or `.jpg` is a media
name. -/
theorem media_of_exact_suffix (x : Name)
    (hx : pySuffix x = mp4Ext ∨ pySuffix x = jpgExt) : isMediaName x = true := by
  unfold isMediaName
  rcases hx with hx | hx <;> rw [hx] <;> decide

/-- Below a `goodPA` listing every file is media. -/
theorem goodPA_media : ∀ cs : List Entry, goodPAList cs = true →
    ∀ x ∈ allFiles cs, isMediaName x = true := by
  intro cs
  induction cs using forestInduction with
  | hnil =>
      intro _ x hx
      rw [allFiles] at hx
      cases hx
  | hfile n rest ih =>
      intro h x hx
      rw [goodPAList, Bool.and_eq_true] at h
      rw [allFiles_file_cons] at hx
      rcases List.mem_cons.mp hx with rfl | hx2
      · have := h.1
        rw [goodPA] at this
        exact this
      · exact ih h.2 x hx2
  | hdir n ch rest ihc ihr =>
      intro h x hx
      rw [goodPAList, Bool.and_eq_true] at h
      have h1 := h.1
      rw [goodPA, Bool.and_eq_true] at h1
      rw [allFiles_dir_cons] at hx
      rcases List.mem_append.mp hx with hx2 | hx2
      · exact ihc h1.2 x hx2
      · exact ihr h.2 x hx2

/-- Every name the renamer assigns has literal suffix `.mp4` or `.jpg`. -/
theorem pySuffix_newName (dn : Name) (total k : Nat) (n : Name)
    (h : isMediaName n = true) :
    pySuffix (newName dn total k n) = mp4Ext ∨
      pySuffix (newName dn total k n) = jpgExt := by
  unfold newName
  by_cases h1 : dn = pName
  · rw [if_pos h1]
    right
    have ha : ['P', '('] ++ getPaddedNumber k total ++ [')'] ++ jpgExt =
        (['P', '('] ++ getPaddedNumber k total ++ [')']) ++ '.' :: ['j', 'p', 'g'] := by
      simp [jpgExt, List.append_assoc]
    rw [ha, pySuffix_append _ _ (by simp) (by simp) (by decide)]
    rfl
  · rw [if_neg h1]
    by_cases h2 : dn = vName
    · rw [if_pos h2]
      left
      have ha : ['V', '('] ++ getPaddedNumber k total ++ [')'] ++ mp4Ext =
          (['V', '('] ++ getPaddedNumber k total ++ [')']) ++ '.' :: ['m', 'p', '4'] := by
        simp [mp4Ext, List.append_assoc]
      rw [ha, pySuffix_append _ _ (by simp) (by simp) (by decide)]
      rfl
    · rw [if_neg h2]
      unfold isMediaName at h
      rcases Bool.or_eq_true_iff.mp h with hh | hh
      · left
        rw [of_decide_eq_true hh]
        have ha : ['p', 'r', 'e', 'v', 'i', 'e', 'w', '('] ++ getPaddedNumber k total ++
            [')'] ++ mp4Ext =
            (['p', 'r', 'e', 'v', 'i', 'e', 'w', '('] ++ getPaddedNumber k total ++ [')']) ++
              '.' :: ['m', 'p', '4'] := by
          simp [mp4Ext, List.append_assoc]
        rw [ha, pySuffix_append _ _ (by simp) (by simp) (by decide)]
        rfl
      · right
        rw [of_decide_eq_true hh]
        have ha : ['p', 'r', 'e', 'v', 'i', 'e', 'w', '('] ++ getPaddedNumber k total ++
            [')'] ++ jpgExt =
            (['p', 'r', 'e', 'v', 'i', 'e', 'w', '('] ++ getPaddedNumber k total ++ [')']) ++
              '.' :: ['j', 'p', 'g'] := by
          simp [jpgExt, List.append_assoc]
        rw [ha, pySuffix_append _ _ (by simp) (by simp) (by decide)]
        rfl

/-- The renamer creates no entry named `V` or `P` and destroys none (on a
media listing). -/
theorem hasVPB_renameGo : ∀ cs : List Entry, ∀ dn total k,
    (∀ x ∈ allFiles cs, isMediaName x = true) →
    hasVPB (renameGo dn total cs k) = hasVPB cs := by
  intro cs
  induction cs using forestInduction with
  | hnil => intro dn total k _; rfl
  | hfile n rest ih =>
      intro dn total k hm
      have hmn : isMediaName n = true := hm n (by rw [allFiles_file_cons]; simp)
      have hih := ih dn total (k + 1)
        (fun x hx => hm x (by rw [allFiles_file_cons]; simp [hx]))
      rw [renameGo_file]
      have h1 : newName dn total k n ≠ vName := by
        have := newName_ne_single dn total k n 'V'
        simpa [vName] using this
      have h2 : newName dn total k n ≠ pName := by
        have := newName_ne_single dn total k n 'P'
        simpa [pName] using this
      have h3 := media_name_ne_vp n hmn
      simp only [hasVPB, List.any_cons, Entry.name] at hih ⊢
      simp [h1, h2, h3.1, h3.2, hih]
  | hdir n ch rest ihc ihr =>
      intro dn total k hm
      have hih := ihr dn total k
        (fun x hx => hm x (by rw [allFiles_dir_cons]; simp [hx]))
      rw [renameGo_dir]
      simp only [hasVPB, List.any_cons, Entry.name] at hih ⊢
      simp [hih]

/-- The renamer keeps every direct file a media file, so the direct-media
test is unchanged. -/
theorem hasMediaB_renameGo : ∀ cs : List Entry, ∀ dn total k,
    (∀ x ∈ allFiles cs, isMediaName x = true) →
    hasMediaB (renameGo dn total cs k) = hasMediaB cs := by
  intro cs
  induction cs using forestInduction with
  | hnil => intro dn total k _; rfl
  | hfile n rest ih =>
      intro dn total k hm
      have hmn : isMediaName n = true := hm n (by rw [allFiles_file_cons]; simp)
      have hnew : isMediaName (newName dn total k n) = true :=
        media_of_exact_suffix _ (pySuffix_newName dn total k n hmn)
      rw [renameGo_file]
      simp only [hasMediaB, List.any_cons, Entry.isFileWith]
      simp [hmn, hnew]
  | hdir n ch rest ihc ihr =>
      intro dn total k hm
      have hih := ihr dn total k
        (fun x hx => hm x (by rw [allFiles_dir_cons]; simp [hx]))
      rw [renameGo_dir]
      simp only [hasMediaB, List.any_cons, Entry.isFileWith] at hih ⊢
      simp [hih]

/-- The renamer preserves Phase-B-fixedness on every entry of a media
listing. -/
theorem phaseBFixedList_renameGo : ∀ cs : List Entry, ∀ dn total k,
    (∀ x ∈ allFiles cs, isMediaName x = true) →
    phaseBFixedList cs = true → phaseBFixedList (renameGo dn total cs k) = true := by
  intro cs
  induction cs using forestInduction with
  | hnil => intro dn total k _ _; rfl
  | hfile n rest ih =>
      intro dn total k hm h
      rw [phaseBFixedList, Bool.and_eq_true] at h
      rw [renameGo_file, phaseBFixedList, Bool.and_eq_true]
      exact ⟨by rw [phaseBFixed],
        ih dn total (k + 1)
          (fun x hx => hm x (by rw [allFiles_file_cons]; simp [hx])) h.2⟩
  | hdir n ch rest ihc ihr =>
      intro dn total k hm h
      have hmch : ∀ x ∈ allFiles ch, isMediaName x = true := fun x hx =>
        hm x (by rw [allFiles_dir_cons]; simp [hx])
      have hmrest : ∀ x ∈ allFiles rest, isMediaName x = true := fun x hx =>
        hm x (by rw [allFiles_dir_cons]; simp [hx])
      rw [phaseBFixedList, Bool.and_eq_true] at h
      rw [renameGo_dir, phaseBFixedList, Bool.and_eq_true]
      refine ⟨?_, ihr dn total k hmrest h.2⟩
      rw [phaseBFixed]
      by_cases hn : n = vName ∨ n = pName
      · rw [if_pos hn]
      · rw [if_neg hn, Bool.and_eq_true]
        have h1 := h.1
        rw [phaseBFixed, if_neg hn, Bool.and_eq_true] at h1
        refine ⟨?_, ihc n (countFiles ch) 1 hmch h1.2⟩
        rw [hasVPB_renameGo ch n (countFiles ch) 1 hmch,
          hasMediaB_renameGo ch n (countFiles ch) 1 hmch]
        exact h1.1

/-- C9: the rename operations emitted by `convert_names` are exactly, in
order, the names of the tree in depth-first post-order (children before
parent) restricted to those the transliteration changes — i.e. a path is
renamed if and only if its transliterated name differs, and every
fixed-point name is left untouched. -/
theorem claim_C9 (tau : Name → Name) (e : Entry) :
    renameOps tau e =
      (postorderNames e).filterMap
        (fun n => if tau n ≠ n then some (n, tau n) else none) ∧
    ∀ p ∈ renameOps tau e, tau p.1 ≠ p.1 := by
  induction e using Entry.inductionOn with
  | hf n =>
      constructor
      · rw [renameOps_file, postorderNames_file]
        by_cases h : tau n ≠ n <;> simp [h]
      · intro p hp
        rw [renameOps_file] at hp
        have hp' := hp
        by_cases h : tau n ≠ n
        · rw [if_pos h] at hp'
          rcases List.mem_singleton.mp hp' with rfl
          exact h
        · rw [if_neg h] at hp'
          simp at hp'
  | hd n cs ih =>
      have hflat : ∀ ds : List Entry,
          (∀ c ∈ ds, renameOps tau c = (postorderNames c).filterMap
            (fun m => if tau m ≠ m then some (m, tau m) else none)) →
          (ds.map (renameOps tau)).flatten =
            ((ds.map postorderNames).flatten).filterMap
              (fun m => if tau m ≠ m then some (m, tau m) else none) := by
        intro ds hds
        induction ds with
        | nil => rfl
        | cons c ds ihd =>
            simp only [List.map_cons, List.flatten_cons, List.filterMap_append]
            rw [hds c (by simp), ihd (fun c hc => hds c (by simp [hc]))]
      constructor
      · rw [renameOps_dir, postorderNames_dir, List.filterMap_append]
        congr 1
        · exact hflat cs (fun c hc => (ih c hc).1)
        · by_cases h : tau n ≠ n <;> simp [h]
      · intro p hp
        rw [renameOps_dir] at hp
        rcases List.mem_append.mp hp with hp | hp
        · obtain ⟨l, hl, hpl⟩ := List.mem_flatten.mp hp
          obtain ⟨c, hc, rfl⟩ := List.mem_map.mp hl
          exact (ih c hc).2 p hpl
        · by_cases h : tau n ≠ n
          · rw [if_pos h] at hp
            rcases List.mem_singleton.mp hp with rfl
            exact h
          · rw [if_neg h] at hp
            simp at hp

/-- Witness for C9 at a one-step transliteration and a two-level tree. -/
theorem claim_C9_witness :
    renameOps (fun m => if m = ['a'] then ['b'] else m) (.dir ['a'] [.file ['c'], .file ['a']]) =
      (postorderNames (.dir ['a'] [.file ['c'], .file ['a']])).filterMap
        (fun m => if (if m = ['a'] then ['b'] else m) ≠ m then
           some (m, if m = ['a'] then ['b'] else m) else none) ∧
    ∀ p ∈ renameOps (fun m => if m = ['a'] then ['b'] else m)
        (.dir ['a'] [.file ['c'], .file ['a']]),
      (if p.1 = ['a'] then ['b'] else p.1) ≠ p.1 :=
  claim_C9 (fun m => if m = ['a'] then ['b'] else m) (.dir ['a'] [.file ['c'], .file ['a']])

/-- Witness for C5: a directory holding a media file next to an existing
(non-empty) `P` folder keeps that file in place. -/
theorem claim_C5_witness :
    phaseBEntry (.dir ['d'] [.file ['a', '.', 'm', 'p', '4'], .dir pName [.file ['b', '.', 'j', 'p', 'g']]]) =
      .dir ['d'] ([.file ['a', '.', 'm', 'p', '4'], .dir pName [.file ['b', '.', 'j', 'p', 'g']]].map phaseBEntry) ∧
    ([.file ['a', '.', 'm', 'p', '4'], .dir pName [.file ['b', '.', 'j', 'p', 'g']]].map phaseBEntry).map Entry.name =
      [.file ['a', '.', 'm', 'p', '4'], .dir pName [.file ['b', '.', 'j', 'p', 'g']]].map Entry.name ∧
    ([.file ['a', '.', 'm', 'p', '4'], .dir pName [.file ['b', '.', 'j', 'p', 'g']]].map phaseBEntry).filter Entry.isFile =
      [.file ['a', '.', 'm', 'p', '4'], .dir pName [.file ['b', '.', 'j', 'p', 'g']]].filter Entry.isFile :=
  claim_C5 ['d'] _ (by decide) (by decide) (by decide)

end IVO
